import Mathlib

/-!
Verification of the cadl-grpc lowering engine (`src/cadl-grpc/src/{proto,emit,grpc}.ts`).

The development shallowly embeds the runtime behaviour of the emitter:

* `ProtoType` and `ProtoDecl` embed the Protobuf AST of `proto.ts`.  At runtime a
  Protobuf type is a tagged tuple `[$scalar, name]`, `[$ref, name]` or
  `[$map, key, value]`; the `map` factory function performs no runtime check of
  its arguments (the key/value restrictions are TypeScript-level only), so the
  embedded `ProtoType.map` constructor accepts any key string and any value.
* `CadlType` embeds the source-graph type nodes consumed by `emit.ts`.  Node
  identity (JavaScript object identity, used by the `visitedTypes` set and the
  decorator state maps) is embedded as a `Nat` id carried by each node.
  CADL intrinsic scalars (`int32`, `string`, ...) and instances of `Cadl.Map`
  are themselves model-kinded nodes for which `isIntrinsic` is true; user
  models are `modelRef` nodes whose properties live in the program's model
  table (reference through a table is what makes reference cycles possible).
* The translation functions `visitType`, `toMessage`, `toFields`, `addType`,
  `addModelAsInput`, `addReturnType`, `toMethodFromOperation`,
  `declarationsFromNamespace` and `cadlToProto` are transcribed from
  `emit.ts`, with the mutable `visitedTypes` set, `declarations` array and the
  program diagnostics list made into explicit state.  The mutually recursive
  core is indexed by fuel, consumed exactly when `visitType` starts
  translating a model it has not visited yet (the only recursion in the
  source that is not structural); everything else is structural.
-/

/-- A structured diagnostic event, as produced by `reportDiagnostic`: a stable
code plus an optional message-selecting sub-code (`messageId`). -/
structure Diag where
  code : String
  messageId : Option String
deriving DecidableEq, Repr

/-- Runtime Protobuf type values (`proto.ts`): `scalar`, `ref`, and `map`
tuples.  The `map` constructor mirrors the runtime `map` factory, which
stores its two arguments without any check. -/
inductive ProtoType where
  | scalar (name : String)
  | ref (name : String)
  | map (key : String) (value : ProtoType)
deriving DecidableEq, Repr

/-- Element `[1]` of the runtime tuple representing a Protobuf type: the
scalar name, the referenced name, or the map key.  `emit.ts` reads
`keyProto[1]` to build a map key. -/
def protoElem1 : ProtoType → String
  | .scalar n => n
  | .ref n => n
  | .map k _ => k

/-- Whether a Protobuf type value is a map tuple. -/
def isMapType : ProtoType → Bool
  | .map _ _ => true
  | _ => false

/-- The Protobuf integral scalar names (`ScalarIntegralName` in `proto.ts`):
the variable-length and fixed-length integer scalars plus `bool`. -/
def isIntegralScalarName (s : String) : Bool :=
  s ∈ ["int32", "int64", "uint32", "uint64", "sint32", "sint64",
       "fixed32", "fixed64", "sfixed32", "sfixed64", "bool"]

/-- A method declaration (`ProtoMethodDeclaration`). -/
structure ProtoMethod where
  name : String
  input : ProtoType
  returns : ProtoType
deriving DecidableEq, Repr

/-- A field declaration (`ProtoFieldDeclaration`).  At runtime the `index`
slot holds `undefined` when the field-index state map has no entry for the
property, hence `Option Nat`. -/
structure ProtoField where
  name : String
  type : ProtoType
  index : Option Nat
deriving DecidableEq, Repr

/-- Top-level declarations of a proto file: `service` and `message`
declarations (the only kinds `emit.ts` pushes into a file). -/
inductive ProtoDecl where
  | service (name : String) (operations : List ProtoMethod)
  | message (name : String) (fields : List ProtoField)
deriving DecidableEq, Repr

/-- Name of a message declaration, if the declaration is a message. -/
def msgName : ProtoDecl → Option String
  | .message n _ => some n
  | .service _ _ => none

/-- Whether a declaration is a message. -/
def isMessageDecl : ProtoDecl → Bool
  | .message _ _ => true
  | .service _ _ => false

/-- A source-graph type node as consumed by `addType` in `emit.ts`.

* `intrinsic id name`: a CADL intrinsic scalar model (kind `Model`,
  `isIntrinsic` true, `getIntrinsicModelName` = `name`).
* `intrinsicMap id args`: an instance of `Cadl.Map` (kind `Model`, name
  `Map`, namespace `Cadl`, `isIntrinsic` true) with template arguments.
* `modelRef id name`: a user model (kind `Model`, not intrinsic); its
  properties are looked up in the program's model table by `id`.
* `other kind`: a node of any non-`Model` kind (union, enum member, ...).
-/
inductive CadlType where
  | intrinsic (id : Nat) (name : String)
  | intrinsicMap (id : Nat) (args : List CadlType)
  | modelRef (id : Nat) (name : String)
  | other (kind : String)

/-- Identity of a node when it has kind `Model` (the kinds `visitType` can be
called on); `none` for non-model kinds. -/
def typeId : CadlType → Option Nat
  | .intrinsic i _ => some i
  | .intrinsicMap i _ => some i
  | .modelRef i _ => some i
  | .other _ => none

/-- The `name` property of a type node (model-kinded nodes only; the dummy
value for `other` is never consulted by the translation). -/
def typeNameD : CadlType → String
  | .intrinsic _ n => n
  | .intrinsicMap _ _ => "Map"
  | .modelRef _ n => n
  | .other _ => ""

/-- A model property: identity (for the field-index state map), name, and
type. -/
structure Property where
  id : Nat
  name : String
  type : CadlType

/-- An operation: name, the properties of its parameter-bag model, and its
return type. -/
structure CadlOperation where
  name : String
  parameters : List Property
  returnType : CadlType

/-- An interface: identity (for the `service` decorator state set), name, and
ordered operations. -/
structure CadlInterface where
  id : Nat
  name : String
  operations : List CadlOperation

/-- A namespace tree node: identity (for the `package` decorator state map),
name, member interfaces, and nested namespaces. -/
inductive CadlNamespace where
  | mk (id : Nat) (name : String) (interfaces : List CadlInterface)
       (children : List CadlNamespace)

/-- Identity of a namespace node. -/
def CadlNamespace.nsId : CadlNamespace → Nat
  | .mk i _ _ _ => i

/-- Member interfaces of a namespace node. -/
def CadlNamespace.interfaces : CadlNamespace → List CadlInterface
  | .mk _ _ is _ => is

/-- Nested namespaces of a namespace node. -/
def CadlNamespace.children : CadlNamespace → List CadlNamespace
  | .mk _ _ _ cs => cs

/-- The read-only host data consumed by the lowering pass: the `package`
state map (insertion-ordered namespace/package-name pairs), the `service`
state set (interface ids), the model table (model id to properties, the
side store standing for dereferencing a `ModelType` object), and the
field-index state map (property id to recorded index). -/
structure CadlProgram where
  packages : List (CadlNamespace × String)
  serviceIds : List Nat
  models : List (Nat × List Property)
  fieldIndex : List (Nat × Nat)

/-- Ids of the namespaces marked as packages. -/
def packageIds (p : CadlProgram) : List Nat :=
  p.packages.map (fun x => x.1.nsId)

/-- First-match association lookup with natural-number keys, standing for a
JavaScript `Map.get`. -/
def assocFind {α : Type} : List (Nat × α) → Nat → Option α
  | [], _ => none
  | (k, v) :: rest, id => if k = id then some v else assocFind rest id

/-- Properties of the model with the given identity (empty for ids absent
from the table, e.g. intrinsic scalar models, which have no properties). -/
def modelProps (p : CadlProgram) (id : Nat) : List Property :=
  match assocFind p.models id with
  | some props => props
  | none => []

/-- Properties behind a type node when `toMessage` reads `model.properties`:
the table entry for user models, empty for intrinsic models. -/
def propsOfType (p : CadlProgram) : CadlType → List Property
  | .modelRef id _ => modelProps p id
  | _ => []

/-- Recorded field index of a property (the `fieldIndex` state map lookup in
`toField`). -/
def lookupIndex (p : CadlProgram) (propId : Nat) : Option Nat :=
  assocFind p.fieldIndex propId

/-- The fixed scalar translation table of `intrinsicToProto` in `emit.ts`. -/
def scalarTable : String → Option String
  | "bytes" => some "bytes"
  | "boolean" => some "bool"
  | "int32" => some "int32"
  | "int64" => some "int64"
  | "uint32" => some "uint32"
  | "uint64" => some "uint64"
  | "string" => some "string"
  | "float32" => some "float"
  | "float64" => some "double"
  | _ => none

/-- The mutable state of one run of `declarationsFromNamespace`: the
`visitedTypes` set (model ids), the `declarations` array, and the program's
accumulated diagnostics. -/
structure EmitState where
  visited : List Nat
  decls : List ProtoDecl
  diags : List Diag
deriving DecidableEq, Repr

/-- Append one diagnostic (`reportDiagnostic`). -/
def addDiag (s : EmitState) (code : String) (messageId : Option String) :
    EmitState :=
  { s with diags := s.diags ++ [⟨code, messageId⟩] }

mutual

/-- Structural size of a type node, used as the secondary component of the
termination measure of the mutually recursive translation functions. -/
def sizeT : CadlType → Nat
  | .intrinsicMap _ args => 1 + sizeTList args
  | _ => 1

/-- Structural size of a list of type nodes. -/
def sizeTList : List CadlType → Nat
  | [] => 0
  | t :: rest => sizeT t + sizeTList rest

end

/-- Structural size of a property list. -/
def sizeProps : List Property → Nat
  | [] => 0
  | pr :: rest => sizeT pr.type + 1 + sizeProps rest

mutual

/-- Embeds `visitType` of `emit.ts`: if the model has not been visited, mark
it visited first, then translate it to a message and push the message after
any messages pushed by the recursive translation of its fields.  Fuel is
consumed exactly here; `none` means the fuel ran out. -/
def visitType (p : CadlProgram) (fuel : Nat) (t : CadlType) (s : EmitState) :
    Option EmitState :=
  match fuel with
  | 0 => none
  | fuel + 1 =>
    match typeId t with
    | none => some s
    | some id =>
      if id ∈ s.visited then some s
      else
        match toMessage p fuel (typeNameD t) (propsOfType p t)
            { s with visited := id :: s.visited } with
        | none => none
        | some (msg, s2) => some { s2 with decls := s2.decls ++ [msg] }
termination_by (fuel, 0)

/-- Embeds `toMessage` of `emit.ts`: one field per property, in order. -/
def toMessage (p : CadlProgram) (fuel : Nat) (name : String)
    (props : List Property) (s : EmitState) :
    Option (ProtoDecl × EmitState) :=
  match toFields p fuel props s with
  | none => none
  | some (fs, s1) => some (.message name fs, s1)
termination_by (fuel, sizeProps props + 2)

/-- Embeds the per-property mapping of `toField` over a property list,
threading the emitter state left to right. -/
def toFields (p : CadlProgram) (fuel : Nat) (props : List Property)
    (s : EmitState) : Option (List ProtoField × EmitState) :=
  match props with
  | [] => some ([], s)
  | pr :: rest =>
    match addType p fuel pr.type s with
    | none => none
    | some (ty, s1) =>
      match toFields p fuel rest s1 with
      | none => none
      | some (fs, s2) =>
        some (⟨pr.name, ty, lookupIndex p pr.id⟩ :: fs, s2)
termination_by (fuel, sizeProps props + 1)
decreasing_by
  all_goals apply Prod.Lex.right
  all_goals first
    | (simp [sizeProps]; omega)
    | simp [sizeProps]

/-- Embeds `addType` together with `intrinsicToProto` of `emit.ts`:
intrinsic nodes are handled first (the `Cadl.Map` instance check, then the
fixed scalar table, then the `unknown-intrinsic` diagnostic); a model node is
visited and turned into a reference by name; any other kind produces an
`unconvertible` diagnostic and the `<unreachable>` placeholder.  When the
map instance is missing a template argument the placeholder is substituted
with no diagnostic, exactly as in the source. -/
def addType (p : CadlProgram) (fuel : Nat) (t : CadlType) (s : EmitState) :
    Option (ProtoType × EmitState) :=
  match t with
  | .intrinsic _ name =>
    match scalarTable name with
    | some sc => some (.scalar sc, s)
    | none =>
      some (.ref "<unreachable>",
        addDiag s "unsupported-field-type" (some "unknown-intrinsic"))
  | .intrinsicMap _ args =>
    match args with
    | k :: v :: _ =>
      match addType p fuel k s with
      | none => none
      | some (kp, s1) =>
        match addType p fuel v s1 with
        | none => none
        | some (vp, s2) => some (.map (protoElem1 kp) vp, s2)
    | _ => some (.ref "<unreachable>", s)
  | .modelRef _ name =>
    match visitType p fuel t s with
    | none => none
    | some s1 => some (.ref name, s1)
  | .other _ =>
    some (.ref "<unreachable>",
      addDiag s "unsupported-field-type" (some "unconvertible"))
termination_by (fuel, sizeT t)
decreasing_by
  all_goals apply Prod.Lex.right
  all_goals first
    | (simp [sizeT, sizeTList]; omega)
    | simp [sizeT, sizeTList]

end

/-- Embeds `addModelAsInput` of `emit.ts`: the parameter bag must have
exactly one property (else the `wrong-number` diagnostic and the placeholder
reference), and that property's type must have kind `Model` (else the
`wrong-type` diagnostic and the placeholder); otherwise the model is visited
and referenced by name. -/
def addModelAsInput (p : CadlProgram) (fuel : Nat) (params : List Property)
    (s : EmitState) : Option (ProtoType × EmitState) :=
  match params with
  | [pr] =>
    match pr.type with
    | .other _ =>
      some (.ref "<unreachable>",
        addDiag s "unsupported-input-type" (some "wrong-type"))
    | t =>
      match visitType p fuel t s with
      | none => none
      | some s1 => some (.ref (typeNameD t), s1)
  | _ =>
    some (.ref "<unreachable>",
      addDiag s "unsupported-input-type" (some "wrong-number"))

/-- Embeds `addReturnType` of `emit.ts`: a `Model`-kinded return type is
visited and referenced by name; any other kind produces the
`unsupported-return-type` diagnostic and the placeholder. -/
def addReturnType (p : CadlProgram) (fuel : Nat) (t : CadlType)
    (s : EmitState) : Option (ProtoType × EmitState) :=
  match t with
  | .other _ =>
    some (.ref "<unreachable>", addDiag s "unsupported-return-type" none)
  | t =>
    match visitType p fuel t s with
    | none => none
    | some s1 => some (.ref (typeNameD t), s1)

/-- Embeds `toMethodFromOperation` of `emit.ts`: the input reference is
computed first, then the return reference. -/
def toMethodFromOperation (p : CadlProgram) (fuel : Nat)
    (op : CadlOperation) (s : EmitState) :
    Option (ProtoMethod × EmitState) :=
  match addModelAsInput p fuel op.parameters s with
  | none => none
  | some (inp, s1) =>
    match addReturnType p fuel op.returnType s1 with
    | none => none
    | some (ret, s2) => some (⟨op.name, inp, ret⟩, s2)

mutual

/-- Embeds `recursiveAddInterfaces` of `emit.ts`: collect the interfaces in
the `service` state set from a namespace and from every nested namespace
that is not itself a package (the real function accumulates into an
insertion-ordered set; since every interface node occurs at one position of
the namespace tree, the insertion order is the traversal order embedded
here). -/
def recursiveAddInterfaces (p : CadlProgram) :
    CadlNamespace → List CadlInterface
  | .mk _ _ ifaces children =>
    ifaces.filter (fun i => i.id ∈ p.serviceIds) ++
      recursiveAddInterfacesList p children

/-- Traversal of the nested namespaces by `recursiveAddInterfaces`, skipping
namespaces that are packages. -/
def recursiveAddInterfacesList (p : CadlProgram) :
    List CadlNamespace → List CadlInterface
  | [] => []
  | c :: rest =>
    (if c.nsId ∈ packageIds p then [] else recursiveAddInterfaces p c) ++
      recursiveAddInterfacesList p rest

end

/-- Translation of the operations of one interface, threading the emitter
state left to right (the `map` over `iface.operations` in
`declarationsFromNamespace`). -/
def toMethodsGo (p : CadlProgram) (fuel : Nat) (ops : List CadlOperation)
    (s : EmitState) : Option (List ProtoMethod × EmitState) :=
  match ops with
  | [] => some ([], s)
  | op :: rest =>
    match toMethodFromOperation p fuel op s with
    | none => none
    | some (m, s1) =>
      match toMethodsGo p fuel rest s1 with
      | none => none
      | some (ms, s2) => some (m :: ms, s2)

/-- The loop over the collected service interfaces: the operations array of
a service is built first (pushing any message declarations it discovers),
and the `service` declaration itself is pushed afterwards. -/
def servicesGo (p : CadlProgram) (fuel : Nat) (ifaces : List CadlInterface)
    (s : EmitState) : Option EmitState :=
  match ifaces with
  | [] => some s
  | i :: rest =>
    match toMethodsGo p fuel i.operations s with
    | none => none
    | some (ms, s1) =>
      servicesGo p fuel rest
        { s1 with decls := s1.decls ++ [.service i.name ms] }

/-- Embeds `declarationsFromNamespace` of `emit.ts`: collect the service
interfaces reachable from the namespace, then reify each as a `service`
declaration with a fresh per-file visited set and declarations array.
Returns the file's declarations and the accumulated diagnostics. -/
def declarationsFromNamespace (p : CadlProgram) (fuel : Nat)
    (ns : CadlNamespace) (diags : List Diag) :
    Option (List ProtoDecl × List Diag) :=
  match servicesGo p fuel (recursiveAddInterfaces p ns) ⟨[], [], diags⟩ with
  | none => none
  | some s => some (s.decls, s.diags)

/-- A proto file as constructed by `cadlToProto`: the package name (always
present for files built from the package map; the writer also accepts files
without one) and the ordered declarations. -/
structure ProtoFile where
  pkg : Option String
  declarations : List ProtoDecl
deriving DecidableEq, Repr

/-- The per-package loop of `cadlToProto`: one file per entry of the
`package` state map, in insertion order. -/
def cadlToProtoGo (p : CadlProgram) (fuel : Nat) :
    List (CadlNamespace × String) → List Diag →
    Option (List ProtoFile × List Diag)
  | [], diags => some ([], diags)
  | (ns, packageName) :: rest, diags =>
    match declarationsFromNamespace p fuel ns diags with
    | none => none
    | some (decls, diags1) =>
      match cadlToProtoGo p fuel rest diags1 with
      | none => none
      | some (files, diags2) =>
        some (⟨some packageName, decls⟩ :: files, diags2)

/-- Embeds `cadlToProto` of `emit.ts`: emit a file per package. -/
def cadlToProto (p : CadlProgram) (fuel : Nat) :
    Option (List ProtoFile × List Diag) :=
  cadlToProtoGo p fuel p.packages []

/-- Embeds the output-path derivation of `doEmit` in `lower.ts`: the dotted
package name is split into segments (all but the last become directories,
the last is the file stem); a file without a package name gets the default
stem `main`. -/
def packageSlug (pkg : Option String) : List String :=
  match pkg with
  | some name => name.splitOn "."
  | none => ["main"]

/-- The maximum field index allowed by Protocol Buffers (`grpc.ts`). -/
def MAX_FIELD_INDEX : Nat := 2 ^ 29 - 1

/-- Embeds the checking logic of the `field` decorator in `grpc.ts` (the
target/parameter validation of the host compiler is assumed to have
succeeded, and the JavaScript number argument is embedded as a rational).
Returns the diagnostics reported and the index recorded into the
field-index state map (`none` when the decorator returns early without
recording). -/
def fieldDecorator (fieldIndex : Rat) : List Diag × Option Nat :=
  if ¬(fieldIndex.den = 1) ∨ fieldIndex ≤ 0 then
    ([⟨"field-index", some "invalid"⟩], none)
  else if fieldIndex > (MAX_FIELD_INDEX : Rat) then
    ([⟨"field-index", some "out-of-bounds"⟩], none)
  else if 19000 ≤ fieldIndex ∧ fieldIndex ≤ 19999 then
    ([⟨"field-index", some "reserved"⟩], some fieldIndex.num.toNat)
  else
    ([], some fieldIndex.num.toNat)

mutual

/-- The model-kinded node identities (with the names recorded at the nodes)
occurring inside one type node, the node itself included. -/
def nodePairsOfType : CadlType → List (Nat × String)
  | .intrinsic i n => [(i, n)]
  | .intrinsicMap i args => (i, "Map") :: nodePairsOfTypeList args
  | .modelRef i n => [(i, n)]
  | .other _ => []

/-- Node pairs of a list of type nodes. -/
def nodePairsOfTypeList : List CadlType → List (Nat × String)
  | [] => []
  | t :: rest => nodePairsOfType t ++ nodePairsOfTypeList rest

end

/-- Node pairs occurring in the types of a property list. -/
def nodePairsOfProps : List Property → List (Nat × String)
  | [] => []
  | pr :: rest => nodePairsOfType pr.type ++ nodePairsOfProps rest

/-- Node pairs reachable through the model table. -/
def tableNodesGo : List (Nat × List Property) → List (Nat × String)
  | [] => []
  | (_, props) :: rest => nodePairsOfProps props ++ tableNodesGo rest

/-- Node pairs reachable through the program's model table. -/
def tableNodes (p : CadlProgram) : List (Nat × String) :=
  tableNodesGo p.models

/-- Node pairs occurring in one operation's signature. -/
def opNodePairs (op : CadlOperation) : List (Nat × String) :=
  nodePairsOfProps op.parameters ++ nodePairsOfType op.returnType

/-- Node pairs occurring in an operation list. -/
def opsNodePairs : List CadlOperation → List (Nat × String)
  | [] => []
  | op :: rest => opNodePairs op ++ opsNodePairs rest

/-- Node pairs occurring in an interface list. -/
def ifacesNodePairs : List CadlInterface → List (Nat × String)
  | [] => []
  | i :: rest => opsNodePairs i.operations ++ ifacesNodePairs rest

mutual

/-- Node pairs occurring in the interfaces of a namespace tree. -/
def nsNodePairs : CadlNamespace → List (Nat × String)
  | .mk _ _ ifaces children =>
    ifacesNodePairs ifaces ++ nsListNodePairs children

/-- Node pairs occurring in a list of namespace trees. -/
def nsListNodePairs : List CadlNamespace → List (Nat × String)
  | [] => []
  | c :: rest => nsNodePairs c ++ nsListNodePairs rest

end

/-- Node pairs occurring in the package list of a program. -/
def packagesNodePairs : List (CadlNamespace × String) → List (Nat × String)
  | [] => []
  | (ns, _) :: rest => nsNodePairs ns ++ packagesNodePairs rest

/-- Every model-kinded node pair a lowering pass over the program can reach:
the model table's nodes plus the nodes written in the signatures of the
operations of every package's namespace tree. -/
def programNodePairs (p : CadlProgram) : List (Nat × String) :=
  tableNodes p ++ packagesNodePairs p.packages

/-- The distinct model-kinded node identities of the program; the successor
of their number is enough fuel for the whole lowering pass. -/
def programIds (p : CadlProgram) : List Nat :=
  ((programNodePairs p).map Prod.fst).dedup

/-- Invariant relating the emitter state before and after one translation
step: the visited set grows by a block of distinct, previously unvisited
model ids, all of which occur in the given node-pair list or in the model
table; the declarations array grows by appended message declarations whose
names list the new visited block in order; the diagnostics list only grows
at the end. -/
def EmitInv (p : CadlProgram) (N : List (Nat × String)) (s s2 : EmitState) :
    Prop :=
  ∃ (V : List (Nat × String)) (E : List ProtoDecl) (D : List Diag),
    s2.visited.Perm (V.map Prod.fst ++ s.visited) ∧
    (V.map Prod.fst).Nodup ∧
    (∀ a ∈ V.map Prod.fst, a ∉ s.visited) ∧
    (∀ x ∈ V, x ∈ N ∨ x ∈ tableNodes p) ∧
    s2.decls = s.decls ++ E ∧
    (∀ d ∈ E, isMessageDecl d = true) ∧
    E.filterMap msgName = V.map Prod.snd ∧
    s2.diags = s.diags ++ D

/-- The invariant for an unchanged state. -/
theorem EmitInv.refl (p : CadlProgram) (N : List (Nat × String))
    (s : EmitState) : EmitInv p N s s := by
  refine ⟨[], [], [], by simp, by simp, by simp, by simp, by simp, by simp,
    by simp [List.filterMap], by simp⟩

/-- A state change satisfying the invariant for a smaller node-pair list
satisfies it for a larger one. -/
theorem EmitInv.mono {p : CadlProgram} {N N2 : List (Nat × String)}
    {s s2 : EmitState} (hsub : ∀ x ∈ N, x ∈ N2) (h : EmitInv p N s s2) :
    EmitInv p N2 s s2 := by
  obtain ⟨V, E, D, h1, h2, h3, h4, h5, h6, h7, h8⟩ := h
  exact ⟨V, E, D, h1, h2, h3,
    fun x hx => (h4 x hx).imp (fun hn => hsub x hn) id, h5, h6, h7, h8⟩

/-- Membership transfer: the visited set only grows across a step. -/
theorem EmitInv.visited_sub {p : CadlProgram} {N : List (Nat × String)}
    {s s2 : EmitState} (h : EmitInv p N s s2) :
    ∀ a ∈ s.visited, a ∈ s2.visited := by
  obtain ⟨V, E, D, h1, -, -, -, -, -, -, -⟩ := h
  intro a ha
  exact h1.mem_iff.mpr (List.mem_append_right _ ha)

/-- Composition of invariant steps. -/
theorem EmitInv.trans {p : CadlProgram} {N : List (Nat × String)}
    {s s1 s2 : EmitState} (g : EmitInv p N s s1) (h : EmitInv p N s1 s2) :
    EmitInv p N s s2 := by
  obtain ⟨V1, E1, D1, g1, g2, g3, g4, g5, g6, g7, g8⟩ := g
  obtain ⟨V2, E2, D2, h1, h2, h3, h4, h5, h6, h7, h8⟩ := h
  have hs01 : ∀ a ∈ s.visited, a ∈ s1.visited := by
    intro a ha
    exact g1.mem_iff.mpr (List.mem_append_right _ ha)
  refine ⟨V1 ++ V2, E1 ++ E2, D1 ++ D2, ?_, ?_, ?_, ?_, ?_, ?_, ?_, ?_⟩
  · have step1 : s2.visited.Perm (V2.map Prod.fst ++ (V1.map Prod.fst ++ s.visited)) :=
      h1.trans (List.Perm.append_left _ g1)
    have step2 : (V2.map Prod.fst ++ V1.map Prod.fst).Perm
        (V1.map Prod.fst ++ V2.map Prod.fst) := List.perm_append_comm
    have step3 : s2.visited.Perm
        ((V2.map Prod.fst ++ V1.map Prod.fst) ++ s.visited) := by
      simpa [List.append_assoc] using step1
    simpa [List.append_assoc] using step3.trans (step2.append_right s.visited)
  · rw [List.map_append, List.nodup_append]
    refine ⟨g2, h2, ?_⟩
    intro a ha hb
    have hmem : a ∈ s1.visited := g1.mem_iff.mpr (List.mem_append_left _ ha)
    exact h3 a hb hmem
  · intro a ha
    rw [List.map_append, List.mem_append] at ha
    rcases ha with ha | ha
    · exact g3 a ha
    · intro hmem
      exact h3 a ha (hs01 a hmem)
  · intro x hx
    rcases List.mem_append.mp hx with hx | hx
    · exact g4 x hx
    · exact h4 x hx
  · rw [h5, g5, List.append_assoc]
  · intro d hd
    rcases List.mem_append.mp hd with hd | hd
    · exact g6 d hd
    · exact h6 d hd
  · rw [List.filterMap_append, g7, h7, List.map_append]
  · rw [h8, g8, List.append_assoc]

/-- Unchanged state except for one appended diagnostic. -/
theorem EmitInv.diag (p : CadlProgram) (N : List (Nat × String))
    (s : EmitState) (c : String) (m : Option String) :
    EmitInv p N s (addDiag s c m) := by
  refine ⟨[], [], [⟨c, m⟩], by simp [addDiag], by simp, by simp, by simp,
    by simp [addDiag], by simp, by simp, by simp [addDiag]⟩

/-- A successful table access yields properties whose node pairs all occur
among the table's node pairs. -/
theorem assocFind_pairs_sub {l : List (Nat × List Property)} {id : Nat}
    {props : List Property} (h : assocFind l id = some props) :
    ∀ x ∈ nodePairsOfProps props, x ∈ tableNodesGo l := by
  induction l with
  | nil => simp [assocFind] at h
  | cons hd rest ih =>
    obtain ⟨k, v⟩ := hd
    by_cases hk : k = id
    · rw [assocFind, if_pos hk] at h
      cases h
      intro x hx
      simp only [tableNodesGo, List.mem_append]
      exact Or.inl hx
    · rw [assocFind, if_neg hk] at h
      intro x hx
      simp only [tableNodesGo, List.mem_append]
      exact Or.inr (ih h x hx)

/-- The node pairs of the properties behind any type node occur in the
program's table nodes. -/
theorem propsOfType_pairs_sub (p : CadlProgram) (t : CadlType) :
    ∀ x ∈ nodePairsOfProps (propsOfType p t), x ∈ tableNodes p := by
  cases t with
  | modelRef i n =>
    simp only [propsOfType, modelProps]
    cases h : assocFind p.models i with
    | none => simp [nodePairsOfProps]
    | some props => exact assocFind_pairs_sub h
  | intrinsic i n => simp [propsOfType, nodePairsOfProps]
  | intrinsicMap i args => simp [propsOfType, nodePairsOfProps]
  | other k => simp [propsOfType, nodePairsOfProps]

/-- A model-kinded node's own pair is among its node pairs. -/
theorem self_pair_mem {t : CadlType} {id : Nat} (h : typeId t = some id) :
    (id, typeNameD t) ∈ nodePairsOfType t := by
  cases t <;> simp_all [typeId, typeNameD, nodePairsOfType]

/-- Invariant statement for `visitType` at a given fuel. -/
def VStmt (p : CadlProgram) (fuel : Nat) : Prop :=
  ∀ t s s2, visitType p fuel t s = some s2 →
    EmitInv p (nodePairsOfType t) s s2

/-- Invariant statement for `addType` at a given fuel. -/
def AStmt (p : CadlProgram) (fuel : Nat) : Prop :=
  ∀ t s r s2, addType p fuel t s = some (r, s2) →
    EmitInv p (nodePairsOfType t) s s2

/-- Invariant statement for `toFields` at a given fuel. -/
def FStmt (p : CadlProgram) (fuel : Nat) : Prop :=
  ∀ props s fs s2, toFields p fuel props s = some (fs, s2) →
    EmitInv p (nodePairsOfProps props) s s2

/-- Invariant statement for `toMessage` at a given fuel. -/
def MStmt (p : CadlProgram) (fuel : Nat) : Prop :=
  ∀ nm props s msg s2, toMessage p fuel nm props s = some (msg, s2) →
    EmitInv p (nodePairsOfProps props) s s2 ∧
      ∃ fs, msg = .message nm fs

/-- With no fuel, `visitType` yields nothing. -/
theorem vstmt_zero (p : CadlProgram) : VStmt p 0 := by
  intro t s s2 h
  simp [visitType] at h

/-- Node pairs of the first template argument of a map instance occur among
the map node's pairs. -/
theorem pairs_map_head_sub (i : Nat) (k : CadlType)
    (rest : List CadlType) :
    ∀ x ∈ nodePairsOfType k,
      x ∈ nodePairsOfType (.intrinsicMap i (k :: rest)) := by
  intro x hx
  simp only [nodePairsOfType, nodePairsOfTypeList, List.mem_cons,
    List.mem_append]
  exact Or.inr (Or.inl hx)

/-- Node pairs of the second template argument of a map instance occur among
the map node's pairs. -/
theorem pairs_map_second_sub (i : Nat) (k v : CadlType)
    (rest : List CadlType) :
    ∀ x ∈ nodePairsOfType v,
      x ∈ nodePairsOfType (.intrinsicMap i (k :: v :: rest)) := by
  intro x hx
  simp only [nodePairsOfType, nodePairsOfTypeList, List.mem_cons,
    List.mem_append]
  exact Or.inr (Or.inr (Or.inl hx))

/-- The invariant holds for `addType` whenever it holds for `visitType` at
the same fuel. -/
theorem astmt_of_vstmt {p : CadlProgram} {fuel : Nat} (hv : VStmt p fuel) :
    AStmt p fuel := by
  have main : ∀ n t, sizeT t ≤ n → ∀ s r s2,
      addType p fuel t s = some (r, s2) →
      EmitInv p (nodePairsOfType t) s s2 := by
    intro n
    induction n with
    | zero =>
      intro t ht
      exact absurd ht (by cases t <;> simp [sizeT])
    | succ n ih =>
      intro t ht s r s2 heq
      cases t with
      | intrinsic i name =>
        simp only [addType] at heq
        cases htab : scalarTable name with
        | some sc =>
          rw [htab] at heq
          simp only [Option.some.injEq, Prod.mk.injEq] at heq
          rw [← heq.2]
          exact EmitInv.refl p _ s
        | none =>
          rw [htab] at heq
          simp only [Option.some.injEq, Prod.mk.injEq] at heq
          rw [← heq.2]
          exact EmitInv.diag p _ s _ _
      | intrinsicMap i args =>
        cases args with
        | nil =>
          simp only [addType, Option.some.injEq, Prod.mk.injEq] at heq
          rw [← heq.2]
          exact EmitInv.refl p _ s
        | cons k rest =>
          cases rest with
          | nil =>
            simp only [addType, Option.some.injEq, Prod.mk.injEq] at heq
            rw [← heq.2]
            exact EmitInv.refl p _ s
          | cons v rest2 =>
            have hk : sizeT k ≤ n := by
              have hx := ht
              simp only [sizeT, sizeTList] at hx
              have hv1 : 1 ≤ sizeT v := by cases v <;> simp [sizeT]
              omega
            have hv2 : sizeT v ≤ n := by
              have hx := ht
              simp only [sizeT, sizeTList] at hx
              have hk1 : 1 ≤ sizeT k := by cases k <;> simp [sizeT]
              omega
            simp only [addType] at heq
            cases h1 : addType p fuel k s with
            | none => rw [h1] at heq; simp at heq
            | some pair1 =>
              obtain ⟨kp, s1⟩ := pair1
              rw [h1] at heq
              simp only at heq
              cases h2 : addType p fuel v s1 with
              | none => rw [h2] at heq; simp at heq
              | some pair2 =>
                obtain ⟨vp, s3⟩ := pair2
                rw [h2] at heq
                simp only [Option.some.injEq, Prod.mk.injEq] at heq
                rw [← heq.2]
                have invk := (ih k hk s kp s1 h1).mono
                  (pairs_map_head_sub i k (v :: rest2))
                have invv := (ih v hv2 s1 vp s3 h2).mono
                  (pairs_map_second_sub i k v rest2)
                exact invk.trans invv
      | modelRef i name =>
        simp only [addType] at heq
        cases hvt : visitType p fuel (.modelRef i name) s with
        | none => rw [hvt] at heq; simp at heq
        | some s3 =>
          rw [hvt] at heq
          simp only [Option.some.injEq, Prod.mk.injEq] at heq
          rw [← heq.2]
          exact hv _ s s3 hvt
      | other kd =>
        simp only [addType, Option.some.injEq, Prod.mk.injEq] at heq
        rw [← heq.2]
        exact EmitInv.diag p _ s _ _
  intro t s r s2 heq
  exact main (sizeT t) t le_rfl s r s2 heq

/-- The invariant holds for `toFields` whenever it holds for `addType` at
the same fuel. -/
theorem fstmt_of_astmt {p : CadlProgram} {fuel : Nat} (ha : AStmt p fuel) :
    FStmt p fuel := by
  intro props
  induction props with
  | nil =>
    intro s fs s2 heq
    simp only [toFields, Option.some.injEq, Prod.mk.injEq] at heq
    rw [← heq.2]
    exact EmitInv.refl p _ s
  | cons pr rest ih =>
    intro s fs s2 heq
    simp only [toFields] at heq
    cases h1 : addType p fuel pr.type s with
    | none => rw [h1] at heq; simp at heq
    | some pair1 =>
      obtain ⟨ty, s1⟩ := pair1
      rw [h1] at heq
      simp only at heq
      cases h2 : toFields p fuel rest s1 with
      | none => rw [h2] at heq; simp at heq
      | some pair2 =>
        obtain ⟨fs2, s3⟩ := pair2
        rw [h2] at heq
        simp only [Option.some.injEq, Prod.mk.injEq] at heq
        rw [← heq.2]
        have inva : EmitInv p (nodePairsOfProps (pr :: rest)) s s1 :=
          (ha pr.type s ty s1 h1).mono
            (fun x hx => by
              simp only [nodePairsOfProps, List.mem_append]
              exact Or.inl hx)
        have invf : EmitInv p (nodePairsOfProps (pr :: rest)) s1 s3 :=
          (ih s1 fs2 s3 h2).mono
            (fun x hx => by
              simp only [nodePairsOfProps, List.mem_append]
              exact Or.inr hx)
        exact inva.trans invf

/-- The invariant holds for `toMessage` whenever it holds for `toFields` at
the same fuel. -/
theorem mstmt_of_fstmt {p : CadlProgram} {fuel : Nat} (hf : FStmt p fuel) :
    MStmt p fuel := by
  intro nm props s msg s2 heq
  simp only [toMessage] at heq
  cases h1 : toFields p fuel props s with
  | none => rw [h1] at heq; simp at heq
  | some pair =>
    obtain ⟨fs, s1⟩ := pair
    rw [h1] at heq
    simp only [Option.some.injEq, Prod.mk.injEq] at heq
    constructor
    · rw [← heq.2]
      exact hf props s fs s1 h1
    · exact ⟨fs, heq.1.symm⟩

/-- The invariant holds for `visitType` at the next fuel whenever it holds
for `toMessage` at the current fuel. -/
theorem vstmt_succ {p : CadlProgram} {fuel : Nat} (hm : MStmt p fuel) :
    VStmt p (fuel + 1) := by
  intro t s s2 heq
  simp only [visitType] at heq
  cases hid : typeId t with
  | none =>
    rw [hid] at heq
    simp only [Option.some.injEq] at heq
    rw [← heq]
    exact EmitInv.refl p _ s
  | some id =>
    rw [hid] at heq
    simp only at heq
    by_cases hvis : id ∈ s.visited
    · rw [if_pos hvis] at heq
      simp only [Option.some.injEq] at heq
      rw [← heq]
      exact EmitInv.refl p _ s
    · rw [if_neg hvis] at heq
      cases hmsg : toMessage p fuel (typeNameD t) (propsOfType p t)
          { s with visited := id :: s.visited } with
      | none => rw [hmsg] at heq; simp at heq
      | some pair =>
        obtain ⟨msg, s3⟩ := pair
        rw [hmsg] at heq
        simp only [Option.some.injEq] at heq
        obtain ⟨invm, fs, hmsgeq⟩ := hm _ _ _ _ _ hmsg
        obtain ⟨VM, EM, DM, m1, m2, m3, m4, m5, m6, m7, m8⟩ := invm
        subst hmsgeq
        rw [← heq]
        refine ⟨VM ++ [(id, typeNameD t)],
          EM ++ [.message (typeNameD t) fs], DM, ?_, ?_, ?_, ?_, ?_, ?_,
          ?_, ?_⟩
        · simpa [List.append_assoc] using m1
        · rw [List.map_append, List.nodup_append]
          refine ⟨m2, by simp, ?_⟩
          intro a ha hb
          simp only [List.map_cons, List.map_nil, List.mem_singleton] at hb
          have hnot := m3 a ha
          rw [hb] at hnot
          exact hnot (List.mem_cons_self id s.visited)
        · intro a ha
          rw [List.map_append, List.mem_append] at ha
          rcases ha with ha | ha
          · have hnot := m3 a ha
            intro hmem
            exact hnot (List.mem_cons_of_mem id hmem)
          · simp only [List.map_cons, List.map_nil,
              List.mem_singleton] at ha
            rw [ha]
            exact hvis
        · intro x hx
          rcases List.mem_append.mp hx with hx | hx
          · rcases m4 x hx with hx2 | hx2
            · exact Or.inr (propsOfType_pairs_sub p t x hx2)
            · exact Or.inr hx2
          · simp only [List.mem_singleton] at hx
            rw [hx]
            exact Or.inl (self_pair_mem hid)
        · simp only [m5]
          simp [List.append_assoc]
        · intro d hd
          rcases List.mem_append.mp hd with hd | hd
          · exact m6 d hd
          · simp only [List.mem_singleton] at hd
            rw [hd]
            rfl
        · rw [List.filterMap_append, m7, List.map_append]
          rfl
        · simpa using m8

/-- The translation invariant, for every fuel value. -/
theorem emit_master (p : CadlProgram) :
    ∀ fuel, VStmt p fuel ∧ AStmt p fuel ∧ FStmt p fuel ∧ MStmt p fuel := by
  intro fuel
  induction fuel with
  | zero =>
    have hv := vstmt_zero p
    have ha := astmt_of_vstmt hv
    have hf := fstmt_of_astmt ha
    exact ⟨hv, ha, hf, mstmt_of_fstmt hf⟩
  | succ n ih =>
    have hv := vstmt_succ ih.2.2.2
    have ha := astmt_of_vstmt hv
    have hf := fstmt_of_astmt ha
    exact ⟨hv, ha, hf, mstmt_of_fstmt hf⟩

/-- Invariant instance for a successful `visitType` run. -/
theorem visitType_inv {p : CadlProgram} {fuel : Nat} {t : CadlType}
    {s s2 : EmitState} (h : visitType p fuel t s = some s2) :
    EmitInv p (nodePairsOfType t) s s2 :=
  (emit_master p fuel).1 t s s2 h

/-- Invariant instance for a successful `addType` run. -/
theorem addType_inv {p : CadlProgram} {fuel : Nat} {t : CadlType}
    {s : EmitState} {r : ProtoType} {s2 : EmitState}
    (h : addType p fuel t s = some (r, s2)) :
    EmitInv p (nodePairsOfType t) s s2 :=
  (emit_master p fuel).2.1 t s r s2 h

/-- Invariant instance for a successful `toFields` run. -/
theorem toFields_inv {p : CadlProgram} {fuel : Nat} {props : List Property}
    {s : EmitState} {fs : List ProtoField} {s2 : EmitState}
    (h : toFields p fuel props s = some (fs, s2)) :
    EmitInv p (nodePairsOfProps props) s s2 :=
  (emit_master p fuel).2.2.1 props s fs s2 h

/-- Invariant instance for a successful `toMessage` run. -/
theorem toMessage_inv {p : CadlProgram} {fuel : Nat} {nm : String}
    {props : List Property} {s : EmitState} {msg : ProtoDecl}
    {s2 : EmitState} (h : toMessage p fuel nm props s = some (msg, s2)) :
    EmitInv p (nodePairsOfProps props) s s2 ∧ ∃ fs, msg = .message nm fs :=
  (emit_master p fuel).2.2.2 nm props s msg s2 h

/-- Number of ids of a universe list not yet visited. -/
def unvisitedCount (U visited : List Nat) : Nat :=
  (U.filter (fun a => a ∉ visited)).length

/-- Filtering away the members of a set drops a head element belonging to
the set. -/
theorem filter_cons_of_mem {U v : List Nat} {b : Nat} (h : b ∈ v) :
    (b :: U).filter (fun a => a ∉ v) = U.filter (fun a => a ∉ v) := by
  rw [List.filter_cons]
  simp [h]

/-- Filtering away the members of a set keeps a head element outside the
set. -/
theorem filter_cons_of_not_mem {U v : List Nat} {b : Nat} (h : b ∉ v) :
    (b :: U).filter (fun a => a ∉ v) = b :: U.filter (fun a => a ∉ v) := by
  rw [List.filter_cons]
  simp [h]

/-- Growing the visited set cannot increase the unvisited count. -/
theorem unvisitedCount_le {U v1 v2 : List Nat} (h : ∀ a ∈ v1, a ∈ v2) :
    unvisitedCount U v2 ≤ unvisitedCount U v1 := by
  induction U with
  | nil => simp [unvisitedCount]
  | cons b U ih =>
    simp only [unvisitedCount] at ih ⊢
    by_cases hb1 : b ∈ v1
    · have hb2 : b ∈ v2 := h b hb1
      rw [filter_cons_of_mem hb1, filter_cons_of_mem hb2]
      exact ih
    · by_cases hb2 : b ∈ v2
      · rw [filter_cons_of_not_mem hb1, filter_cons_of_mem hb2]
        simp only [List.length_cons]
        omega
      · rw [filter_cons_of_not_mem hb1, filter_cons_of_not_mem hb2]
        simp only [List.length_cons]
        omega

/-- Visiting a fresh id of a duplicate-free universe strictly decreases the
unvisited count. -/
theorem unvisitedCount_lt {U : List Nat} (hU : U.Nodup) {id : Nat}
    {visited : List Nat} (hidU : id ∈ U) (hid : id ∉ visited) :
    unvisitedCount U (id :: visited) < unvisitedCount U visited := by
  induction U with
  | nil => cases hidU
  | cons b U ih =>
    rcases List.nodup_cons.mp hU with ⟨hbU, hUnd⟩
    simp only [unvisitedCount] at ih ⊢
    rcases List.mem_cons.mp hidU with hbid | hidU2
    · subst hbid
      rw [filter_cons_of_mem (List.mem_cons_self id visited),
        filter_cons_of_not_mem hid]
      have hle : unvisitedCount U (id :: visited) ≤
          unvisitedCount U visited :=
        unvisitedCount_le (fun a ha => List.mem_cons_of_mem id ha)
      simp only [unvisitedCount] at hle
      simp only [List.length_cons]
      omega
    · have hbid : b ≠ id := fun hbe => hbU (hbe ▸ hidU2)
      have hmem : b ∈ id :: visited ↔ b ∈ visited := by
        simp [List.mem_cons, hbid]
      by_cases hbv : b ∈ visited
      · rw [filter_cons_of_mem (hmem.mpr hbv), filter_cons_of_mem hbv]
        exact ih hUnd hidU2
      · rw [filter_cons_of_not_mem (fun hx => hbv (hmem.mp hx)),
          filter_cons_of_not_mem hbv]
        simp only [List.length_cons]
        have := ih hUnd hidU2
        omega

/-- Unvisited count across an invariant step only decreases. -/
theorem unvisitedCount_step {p : CadlProgram} {N : List (Nat × String)}
    {s s2 : EmitState} (h : EmitInv p N s s2) (U : List Nat) :
    unvisitedCount U s2.visited ≤ unvisitedCount U s.visited :=
  unvisitedCount_le h.visited_sub

/-- Sufficiency statement for `visitType`: with a covering universe and
enough fuel, the translation does not run out. -/
def SVStmt (p : CadlProgram) (U : List Nat) (fuel : Nat) : Prop :=
  ∀ t s, (∀ x ∈ nodePairsOfType t, x.1 ∈ U) →
    unvisitedCount U s.visited < fuel → visitType p fuel t s ≠ none

/-- Sufficiency statement for `addType`. -/
def SAStmt (p : CadlProgram) (U : List Nat) (fuel : Nat) : Prop :=
  ∀ t s, (∀ x ∈ nodePairsOfType t, x.1 ∈ U) →
    unvisitedCount U s.visited < fuel → addType p fuel t s ≠ none

/-- Sufficiency statement for `toFields`. -/
def SFStmt (p : CadlProgram) (U : List Nat) (fuel : Nat) : Prop :=
  ∀ props s, (∀ x ∈ nodePairsOfProps props, x.1 ∈ U) →
    unvisitedCount U s.visited < fuel → toFields p fuel props s ≠ none

/-- Sufficiency statement for `toMessage`. -/
def SMStmt (p : CadlProgram) (U : List Nat) (fuel : Nat) : Prop :=
  ∀ nm props s, (∀ x ∈ nodePairsOfProps props, x.1 ∈ U) →
    unvisitedCount U s.visited < fuel → toMessage p fuel nm props s ≠ none

/-- Sufficiency transfers from `visitType` to `addType` at the same fuel. -/
theorem sa_of_sv {p : CadlProgram} {U : List Nat} {fuel : Nat}
    (hsv : SVStmt p U fuel) : SAStmt p U fuel := by
  have main : ∀ n t, sizeT t ≤ n → ∀ s,
      (∀ x ∈ nodePairsOfType t, x.1 ∈ U) →
      unvisitedCount U s.visited < fuel → addType p fuel t s ≠ none := by
    intro n
    induction n with
    | zero =>
      intro t ht
      exact absurd ht (by cases t <;> simp [sizeT])
    | succ n ih =>
      intro t ht s hcov hcount
      cases t with
      | intrinsic i name =>
        simp only [addType]
        cases scalarTable name <;> simp
      | intrinsicMap i args =>
        cases args with
        | nil => simp [addType]
        | cons k rest =>
          cases rest with
          | nil => simp [addType]
          | cons v rest2 =>
            have hk : sizeT k ≤ n := by
              have hx := ht
              simp only [sizeT, sizeTList] at hx
              have hv1 : 1 ≤ sizeT v := by cases v <;> simp [sizeT]
              omega
            have hv2 : sizeT v ≤ n := by
              have hx := ht
              simp only [sizeT, sizeTList] at hx
              have hk1 : 1 ≤ sizeT k := by cases k <;> simp [sizeT]
              omega
            have hcovk : ∀ x ∈ nodePairsOfType k, x.1 ∈ U :=
              fun x hx =>
                hcov x (pairs_map_head_sub i k (v :: rest2) x hx)
            have hcovv : ∀ x ∈ nodePairsOfType v, x.1 ∈ U :=
              fun x hx =>
                hcov x (pairs_map_second_sub i k v rest2 x hx)
            have h1 := ih k hk s hcovk hcount
            cases hk1 : addType p fuel k s with
            | none => exact absurd hk1 h1
            | some pair1 =>
              obtain ⟨kp, s1⟩ := pair1
              have hcount1 : unvisitedCount U s1.visited < fuel :=
                lt_of_le_of_lt (unvisitedCount_step (addType_inv hk1) U)
                  hcount
              have h2 := ih v hv2 s1 hcovv hcount1
              cases hk2 : addType p fuel v s1 with
              | none => exact absurd hk2 h2
              | some pair2 =>
                obtain ⟨vp, s3⟩ := pair2
                simp only [addType]
                rw [hk1]
                simp only
                rw [hk2]
                simp
      | modelRef i name =>
        have h1 := hsv (.modelRef i name) s hcov hcount
        cases hvt : visitType p fuel (.modelRef i name) s with
        | none => exact absurd hvt h1
        | some s3 =>
          simp only [addType]
          rw [hvt]
          simp
      | other kd => simp [addType]
  intro t s hcov hcount
  exact main (sizeT t) t le_rfl s hcov hcount

/-- Sufficiency transfers from `addType` to `toFields` at the same fuel. -/
theorem sf_of_sa {p : CadlProgram} {U : List Nat} {fuel : Nat}
    (hsa : SAStmt p U fuel) : SFStmt p U fuel := by
  intro props
  induction props with
  | nil => intro s hcov hcount; simp [toFields]
  | cons pr rest ih =>
    intro s hcov hcount
    have hcov1 : ∀ x ∈ nodePairsOfType pr.type, x.1 ∈ U := fun x hx =>
      hcov x (by
        simp only [nodePairsOfProps, List.mem_append]
        exact Or.inl hx)
    have hcov2 : ∀ x ∈ nodePairsOfProps rest, x.1 ∈ U := fun x hx =>
      hcov x (by
        simp only [nodePairsOfProps, List.mem_append]
        exact Or.inr hx)
    have h1 := hsa pr.type s hcov1 hcount
    cases hk1 : addType p fuel pr.type s with
    | none => exact absurd hk1 h1
    | some pair1 =>
      obtain ⟨ty, s1⟩ := pair1
      have hcount1 : unvisitedCount U s1.visited < fuel :=
        lt_of_le_of_lt (unvisitedCount_step (addType_inv hk1) U) hcount
      have h2 := ih s1 hcov2 hcount1
      cases hk2 : toFields p fuel rest s1 with
      | none => exact absurd hk2 h2
      | some pair2 =>
        simp only [toFields]
        rw [hk1]
        simp only
        rw [hk2]
        simp

/-- Sufficiency transfers from `toFields` to `toMessage` at the same
fuel. -/
theorem sm_of_sf {p : CadlProgram} {U : List Nat} {fuel : Nat}
    (hsf : SFStmt p U fuel) : SMStmt p U fuel := by
  intro nm props s hcov hcount
  have h1 := hsf props s hcov hcount
  cases hk1 : toFields p fuel props s with
  | none => exact absurd hk1 h1
  | some pair =>
    simp only [toMessage]
    rw [hk1]
    simp

/-- Sufficiency transfers from `toMessage` to `visitType` at the next fuel
value, consuming one unit of fuel exactly when a fresh model is visited. -/
theorem sv_succ {p : CadlProgram} {U : List Nat} {fuel : Nat}
    (hU : U.Nodup) (hTab : ∀ x ∈ tableNodes p, x.1 ∈ U)
    (hsm : SMStmt p U fuel) : SVStmt p U (fuel + 1) := by
  intro t s hcov hcount
  simp only [visitType]
  cases hid : typeId t with
  | none => simp
  | some id =>
    simp only
    by_cases hvis : id ∈ s.visited
    · rw [if_pos hvis]
      simp
    · rw [if_neg hvis]
      have hidU : id ∈ U := hcov (id, typeNameD t) (self_pair_mem hid)
      have hcount2 :
          unvisitedCount U (id :: s.visited) < fuel := by
        have hlt := unvisitedCount_lt hU hidU hvis
        omega
      have hcovp :
          ∀ x ∈ nodePairsOfProps (propsOfType p t), x.1 ∈ U := fun x hx =>
        hTab x (propsOfType_pairs_sub p t x hx)
      have h1 := hsm (typeNameD t) (propsOfType p t)
        { s with visited := id :: s.visited } hcovp hcount2
      cases hk1 : toMessage p fuel (typeNameD t) (propsOfType p t)
          { s with visited := id :: s.visited } with
      | none => exact absurd hk1 h1
      | some pair => simp

/-- Combined sufficiency statement, for every fuel value. -/
theorem emit_suff (p : CadlProgram) (U : List Nat) (hU : U.Nodup)
    (hTab : ∀ x ∈ tableNodes p, x.1 ∈ U) :
    ∀ fuel, SVStmt p U fuel ∧ SAStmt p U fuel ∧ SFStmt p U fuel ∧
      SMStmt p U fuel := by
  intro fuel
  induction fuel with
  | zero =>
    have hsv : SVStmt p U 0 := by
      intro t s hcov hcount
      omega
    have hsa := sa_of_sv hsv
    have hsf := sf_of_sa hsa
    exact ⟨hsv, hsa, hsf, sm_of_sf hsf⟩
  | succ n ih =>
    have hsv := sv_succ hU hTab ih.2.2.2
    have hsa := sa_of_sv hsv
    have hsf := sf_of_sa hsa
    exact ⟨hsv, hsa, hsf, sm_of_sf hsf⟩

/-- The input reference produced by `addModelAsInput` depends only on the
parameter list, not on the emitter state. -/
def inputSpec (params : List Property) : ProtoType :=
  match params with
  | [pr] =>
    match pr.type with
    | .other _ => .ref "<unreachable>"
    | t => .ref (typeNameD t)
  | _ => .ref "<unreachable>"

/-- The return reference produced by `addReturnType` depends only on the
return type. -/
def returnSpec (t : CadlType) : ProtoType :=
  match t with
  | .other _ => .ref "<unreachable>"
  | t => .ref (typeNameD t)

/-- The method declaration produced for an operation, as a pure function of
the operation. -/
def methodSpec (op : CadlOperation) : ProtoMethod :=
  ⟨op.name, inputSpec op.parameters, returnSpec op.returnType⟩

/-- A successful `visitType` leaves the node's id in the visited set. -/
theorem visitType_mem {p : CadlProgram} {fuel : Nat} {t : CadlType}
    {s s2 : EmitState} {id : Nat} (h : visitType p fuel t s = some s2)
    (hid : typeId t = some id) : id ∈ s2.visited := by
  cases fuel with
  | zero => simp [visitType] at h
  | succ n =>
    simp only [visitType, hid] at h
    by_cases hvis : id ∈ s.visited
    · rw [if_pos hvis] at h
      simp only [Option.some.injEq] at h
      rw [← h]
      exact hvis
    · rw [if_neg hvis] at h
      cases hmsg : toMessage p n (typeNameD t) (propsOfType p t)
          { s with visited := id :: s.visited } with
      | none => rw [hmsg] at h; simp at h
      | some pair =>
        obtain ⟨msg, s3⟩ := pair
        rw [hmsg] at h
        simp only [Option.some.injEq] at h
        rw [← h]
        exact (toMessage_inv hmsg).1.visited_sub id
          (List.mem_cons_self id s.visited)

/-- Characterization of `addModelAsInput` when the parameter bag does not
have exactly one property: the `wrong-number` diagnostic is appended and
the placeholder is returned. -/
theorem addModelAsInput_wrong_number {p : CadlProgram} {fuel : Nat}
    {params : List Property} (s : EmitState) (h : params.length ≠ 1) :
    addModelAsInput p fuel params s =
      some (.ref "<unreachable>",
        addDiag s "unsupported-input-type" (some "wrong-number")) := by
  match params with
  | [] => rfl
  | [pr] => exact absurd rfl h
  | pr1 :: pr2 :: rest => rfl

/-- The result component of a successful `addModelAsInput` is the pure
input-reference function of the parameter list. -/
theorem addModelAsInput_r {p : CadlProgram} {fuel : Nat}
    {params : List Property} {s : EmitState} {r : ProtoType}
    {s2 : EmitState} (h : addModelAsInput p fuel params s = some (r, s2)) :
    r = inputSpec params := by
  match params with
  | [] => simp only [addModelAsInput, Option.some.injEq, Prod.mk.injEq] at h
          rw [← h.1]; rfl
  | pr :: pr2 :: rest =>
    simp only [addModelAsInput, Option.some.injEq, Prod.mk.injEq] at h
    rw [← h.1]; rfl
  | [pr] =>
    obtain ⟨pid, pname, ptype⟩ := pr
    cases ptype with
    | other kd =>
      simp only [addModelAsInput, Option.some.injEq, Prod.mk.injEq] at h
      rw [← h.1]; rfl
    | intrinsic i n =>
      simp only [addModelAsInput] at h
      cases hvt : visitType p fuel (.intrinsic i n) s with
      | none => rw [hvt] at h; simp at h
      | some s3 =>
        rw [hvt] at h
        simp only [Option.some.injEq, Prod.mk.injEq] at h
        rw [← h.1]; rfl
    | intrinsicMap i args =>
      simp only [addModelAsInput] at h
      cases hvt : visitType p fuel (.intrinsicMap i args) s with
      | none => rw [hvt] at h; simp at h
      | some s3 =>
        rw [hvt] at h
        simp only [Option.some.injEq, Prod.mk.injEq] at h
        rw [← h.1]; rfl
    | modelRef i n =>
      simp only [addModelAsInput] at h
      cases hvt : visitType p fuel (.modelRef i n) s with
      | none => rw [hvt] at h; simp at h
      | some s3 =>
        rw [hvt] at h
        simp only [Option.some.injEq, Prod.mk.injEq] at h
        rw [← h.1]; rfl

/-- The result component of a successful `addReturnType` is the pure
return-reference function of the type. -/
theorem addReturnType_r {p : CadlProgram} {fuel : Nat} {t : CadlType}
    {s : EmitState} {r : ProtoType} {s2 : EmitState}
    (h : addReturnType p fuel t s = some (r, s2)) : r = returnSpec t := by
  cases t with
  | other kd =>
    simp only [addReturnType, Option.some.injEq, Prod.mk.injEq] at h
    rw [← h.1]; rfl
  | intrinsic i n =>
    simp only [addReturnType] at h
    cases hvt : visitType p fuel (.intrinsic i n) s with
    | none => rw [hvt] at h; simp at h
    | some s3 =>
      rw [hvt] at h
      simp only [Option.some.injEq, Prod.mk.injEq] at h
      rw [← h.1]; rfl
  | intrinsicMap i args =>
    simp only [addReturnType] at h
    cases hvt : visitType p fuel (.intrinsicMap i args) s with
    | none => rw [hvt] at h; simp at h
    | some s3 =>
      rw [hvt] at h
      simp only [Option.some.injEq, Prod.mk.injEq] at h
      rw [← h.1]; rfl
  | modelRef i n =>
    simp only [addReturnType] at h
    cases hvt : visitType p fuel (.modelRef i n) s with
    | none => rw [hvt] at h; simp at h
    | some s3 =>
      rw [hvt] at h
      simp only [Option.some.injEq, Prod.mk.injEq] at h
      rw [← h.1]; rfl

/-- Invariant instance for a successful `addModelAsInput` run. -/
theorem addModelAsInput_inv {p : CadlProgram} {fuel : Nat}
    {params : List Property} {s : EmitState} {r : ProtoType}
    {s2 : EmitState} (h : addModelAsInput p fuel params s = some (r, s2)) :
    EmitInv p (nodePairsOfProps params) s s2 := by
  match params with
  | [] =>
    simp only [addModelAsInput, Option.some.injEq, Prod.mk.injEq] at h
    rw [← h.2]
    exact EmitInv.diag p _ s _ _
  | pr :: pr2 :: rest =>
    simp only [addModelAsInput, Option.some.injEq, Prod.mk.injEq] at h
    rw [← h.2]
    exact EmitInv.diag p _ s _ _
  | [pr] =>
    obtain ⟨pid, pname, ptype⟩ := pr
    have hsub : ∀ x ∈ nodePairsOfType ptype,
        x ∈ nodePairsOfProps [⟨pid, pname, ptype⟩] := by
      intro x hx
      simp only [nodePairsOfProps, List.mem_append]
      exact Or.inl hx
    cases ptype with
    | other kd =>
      simp only [addModelAsInput, Option.some.injEq, Prod.mk.injEq] at h
      rw [← h.2]
      exact EmitInv.diag p _ s _ _
    | intrinsic i n =>
      simp only [addModelAsInput] at h
      cases hvt : visitType p fuel (.intrinsic i n) s with
      | none => rw [hvt] at h; simp at h
      | some s3 =>
        rw [hvt] at h
        simp only [Option.some.injEq, Prod.mk.injEq] at h
        rw [← h.2]
        exact (visitType_inv hvt).mono hsub
    | intrinsicMap i args =>
      simp only [addModelAsInput] at h
      cases hvt : visitType p fuel (.intrinsicMap i args) s with
      | none => rw [hvt] at h; simp at h
      | some s3 =>
        rw [hvt] at h
        simp only [Option.some.injEq, Prod.mk.injEq] at h
        rw [← h.2]
        exact (visitType_inv hvt).mono hsub
    | modelRef i n =>
      simp only [addModelAsInput] at h
      cases hvt : visitType p fuel (.modelRef i n) s with
      | none => rw [hvt] at h; simp at h
      | some s3 =>
        rw [hvt] at h
        simp only [Option.some.injEq, Prod.mk.injEq] at h
        rw [← h.2]
        exact (visitType_inv hvt).mono hsub

/-- Invariant instance for a successful `addReturnType` run. -/
theorem addReturnType_inv {p : CadlProgram} {fuel : Nat} {t : CadlType}
    {s : EmitState} {r : ProtoType} {s2 : EmitState}
    (h : addReturnType p fuel t s = some (r, s2)) :
    EmitInv p (nodePairsOfType t) s s2 := by
  cases t with
  | other kd =>
    simp only [addReturnType, Option.some.injEq, Prod.mk.injEq] at h
    rw [← h.2]
    exact EmitInv.diag p _ s _ _
  | intrinsic i n =>
    simp only [addReturnType] at h
    cases hvt : visitType p fuel (.intrinsic i n) s with
    | none => rw [hvt] at h; simp at h
    | some s3 =>
      rw [hvt] at h
      simp only [Option.some.injEq, Prod.mk.injEq] at h
      rw [← h.2]
      exact visitType_inv hvt
  | intrinsicMap i args =>
    simp only [addReturnType] at h
    cases hvt : visitType p fuel (.intrinsicMap i args) s with
    | none => rw [hvt] at h; simp at h
    | some s3 =>
      rw [hvt] at h
      simp only [Option.some.injEq, Prod.mk.injEq] at h
      rw [← h.2]
      exact visitType_inv hvt
  | modelRef i n =>
    simp only [addReturnType] at h
    cases hvt : visitType p fuel (.modelRef i n) s with
    | none => rw [hvt] at h; simp at h
    | some s3 =>
      rw [hvt] at h
      simp only [Option.some.injEq, Prod.mk.injEq] at h
      rw [← h.2]
      exact visitType_inv hvt

/-- A successful `addModelAsInput` over a single model-kinded parameter
leaves the parameter's model id visited. -/
theorem addModelAsInput_mem {p : CadlProgram} {fuel : Nat} {pr : Property}
    {s : EmitState} {r : ProtoType} {s2 : EmitState} {id : Nat}
    (h : addModelAsInput p fuel [pr] s = some (r, s2))
    (hid : typeId pr.type = some id) : id ∈ s2.visited := by
  obtain ⟨pid, pname, ptype⟩ := pr
  cases ptype with
  | other kd => simp [typeId] at hid
  | intrinsic i n =>
    simp only [addModelAsInput] at h
    cases hvt : visitType p fuel (.intrinsic i n) s with
    | none => rw [hvt] at h; simp at h
    | some s3 =>
      rw [hvt] at h
      simp only [Option.some.injEq, Prod.mk.injEq] at h
      rw [← h.2]
      exact visitType_mem hvt hid
  | intrinsicMap i args =>
    simp only [addModelAsInput] at h
    cases hvt : visitType p fuel (.intrinsicMap i args) s with
    | none => rw [hvt] at h; simp at h
    | some s3 =>
      rw [hvt] at h
      simp only [Option.some.injEq, Prod.mk.injEq] at h
      rw [← h.2]
      exact visitType_mem hvt hid
  | modelRef i n =>
    simp only [addModelAsInput] at h
    cases hvt : visitType p fuel (.modelRef i n) s with
    | none => rw [hvt] at h; simp at h
    | some s3 =>
      rw [hvt] at h
      simp only [Option.some.injEq, Prod.mk.injEq] at h
      rw [← h.2]
      exact visitType_mem hvt hid

/-- A successful `addReturnType` over a model-kinded return type leaves the
model id visited. -/
theorem addReturnType_mem {p : CadlProgram} {fuel : Nat} {t : CadlType}
    {s : EmitState} {r : ProtoType} {s2 : EmitState} {id : Nat}
    (h : addReturnType p fuel t s = some (r, s2))
    (hid : typeId t = some id) : id ∈ s2.visited := by
  cases t with
  | other kd => simp [typeId] at hid
  | intrinsic i n =>
    simp only [addReturnType] at h
    cases hvt : visitType p fuel (.intrinsic i n) s with
    | none => rw [hvt] at h; simp at h
    | some s3 =>
      rw [hvt] at h
      simp only [Option.some.injEq, Prod.mk.injEq] at h
      rw [← h.2]
      exact visitType_mem hvt hid
  | intrinsicMap i args =>
    simp only [addReturnType] at h
    cases hvt : visitType p fuel (.intrinsicMap i args) s with
    | none => rw [hvt] at h; simp at h
    | some s3 =>
      rw [hvt] at h
      simp only [Option.some.injEq, Prod.mk.injEq] at h
      rw [← h.2]
      exact visitType_mem hvt hid
  | modelRef i n =>
    simp only [addReturnType] at h
    cases hvt : visitType p fuel (.modelRef i n) s with
    | none => rw [hvt] at h; simp at h
    | some s3 =>
      rw [hvt] at h
      simp only [Option.some.injEq, Prod.mk.injEq] at h
      rw [← h.2]
      exact visitType_mem hvt hid

/-- Characterization of a successful `toMethodFromOperation`: the method is
the pure projection of the operation and the state change satisfies the
invariant over the operation's node pairs. -/
theorem toMethodFromOperation_char {p : CadlProgram} {fuel : Nat}
    {op : CadlOperation} {s : EmitState} {m : ProtoMethod} {s2 : EmitState}
    (h : toMethodFromOperation p fuel op s = some (m, s2)) :
    m = methodSpec op ∧ EmitInv p (opNodePairs op) s s2 := by
  simp only [toMethodFromOperation] at h
  cases h1 : addModelAsInput p fuel op.parameters s with
  | none => rw [h1] at h; simp at h
  | some pair1 =>
    obtain ⟨inp, s1⟩ := pair1
    rw [h1] at h
    simp only at h
    cases h2 : addReturnType p fuel op.returnType s1 with
    | none => rw [h2] at h; simp at h
    | some pair2 =>
      obtain ⟨ret, s3⟩ := pair2
      rw [h2] at h
      simp only [Option.some.injEq, Prod.mk.injEq] at h
      constructor
      · rw [← h.1, addModelAsInput_r h1, addReturnType_r h2]
        rfl
      · rw [← h.2]
        have i1 : EmitInv p (opNodePairs op) s s1 :=
          (addModelAsInput_inv h1).mono (fun x hx => by
            simp only [opNodePairs, List.mem_append]
            exact Or.inl hx)
        have i2 : EmitInv p (opNodePairs op) s1 s3 :=
          (addReturnType_inv h2).mono (fun x hx => by
            simp only [opNodePairs, List.mem_append]
            exact Or.inr hx)
        exact i1.trans i2

/-- The operations of a list of interfaces, in traversal order. -/
def opsOfIfaces : List CadlInterface → List CadlOperation
  | [] => []
  | i :: rest => i.operations ++ opsOfIfaces rest

/-- Characterization of a successful `toMethodsGo`: the produced method
list is the pure projection of the operations and the state change
satisfies the invariant. -/
theorem toMethodsGo_char {p : CadlProgram} {fuel : Nat} :
    ∀ {ops : List CadlOperation} {s : EmitState} {ms : List ProtoMethod}
      {s2 : EmitState}, toMethodsGo p fuel ops s = some (ms, s2) →
      ms = ops.map methodSpec ∧ EmitInv p (opsNodePairs ops) s s2 := by
  intro ops
  induction ops with
  | nil =>
    intro s ms s2 h
    simp only [toMethodsGo, Option.some.injEq, Prod.mk.injEq] at h
    exact ⟨h.1.symm ▸ rfl, h.2 ▸ EmitInv.refl p _ s⟩
  | cons op rest ih =>
    intro s ms s2 h
    simp only [toMethodsGo] at h
    cases h1 : toMethodFromOperation p fuel op s with
    | none => rw [h1] at h; simp at h
    | some pair1 =>
      obtain ⟨m, s1⟩ := pair1
      rw [h1] at h
      simp only at h
      cases h2 : toMethodsGo p fuel rest s1 with
      | none => rw [h2] at h; simp at h
      | some pair2 =>
        obtain ⟨ms2, s3⟩ := pair2
        rw [h2] at h
        simp only [Option.some.injEq, Prod.mk.injEq] at h
        obtain ⟨hm, hinv1⟩ := toMethodFromOperation_char h1
        obtain ⟨hms, hinv2⟩ := ih h2
        constructor
        · rw [← h.1, hm, hms]
          rfl
        · rw [← h.2]
          have i1 : EmitInv p (opsNodePairs (op :: rest)) s s1 :=
            hinv1.mono (fun x hx => by
              simp only [opsNodePairs, List.mem_append]
              exact Or.inl hx)
          have i2 : EmitInv p (opsNodePairs (op :: rest)) s1 s3 :=
            hinv2.mono (fun x hx => by
              simp only [opsNodePairs, List.mem_append]
              exact Or.inr hx)
          exact i1.trans i2

/-- After a successful `toMethodsGo`, every single-property parameter bag
whose property has a model-kinded type has that model's id visited, and
likewise every model-kinded return type. -/
theorem toMethodsGo_visits {p : CadlProgram} {fuel : Nat} :
    ∀ {ops : List CadlOperation} {s : EmitState} {ms : List ProtoMethod}
      {s2 : EmitState}, toMethodsGo p fuel ops s = some (ms, s2) →
      ∀ op ∈ ops,
        (∀ pr id, op.parameters = [pr] → typeId pr.type = some id →
          id ∈ s2.visited) ∧
        (∀ id, typeId op.returnType = some id → id ∈ s2.visited) := by
  intro ops
  induction ops with
  | nil => intro s ms s2 h op hop; cases hop
  | cons op0 rest ih =>
    intro s ms s2 h op hop
    simp only [toMethodsGo] at h
    cases h1 : toMethodFromOperation p fuel op0 s with
    | none => rw [h1] at h; simp at h
    | some pair1 =>
      obtain ⟨m, s1⟩ := pair1
      rw [h1] at h
      simp only at h
      cases h2 : toMethodsGo p fuel rest s1 with
      | none => rw [h2] at h; simp at h
      | some pair2 =>
        obtain ⟨ms2, s3⟩ := pair2
        rw [h2] at h
        simp only [Option.some.injEq, Prod.mk.injEq] at h
        have hsub2 : ∀ a ∈ s1.visited, a ∈ s2.visited := by
          intro a ha
          rw [← h.2]
          exact (toMethodsGo_char h2).2.visited_sub a ha
        rcases List.mem_cons.mp hop with hopeq | hoprest
        · subst hopeq
          simp only [toMethodFromOperation] at h1
          cases g1 : addModelAsInput p fuel op.parameters s with
          | none => rw [g1] at h1; simp at h1
          | some gpair1 =>
            obtain ⟨inp, t1⟩ := gpair1
            rw [g1] at h1
            simp only at h1
            cases g2 : addReturnType p fuel op.returnType t1 with
            | none => rw [g2] at h1; simp at h1
            | some gpair2 =>
              obtain ⟨ret, t2⟩ := gpair2
              rw [g2] at h1
              simp only [Option.some.injEq, Prod.mk.injEq] at h1
              have ht2s1 : t2 = s1 := by
                have := h1.2
                exact this
              constructor
              · intro pr id hpr hid
                rw [hpr] at g1
                have hmem1 : id ∈ t1.visited := addModelAsInput_mem g1 hid
                have hmem2 : id ∈ t2.visited :=
                  (addReturnType_inv g2).visited_sub id hmem1
                exact hsub2 id (ht2s1 ▸ hmem2)
              · intro id hid
                have hmem2 : id ∈ t2.visited := addReturnType_mem g2 hid
                exact hsub2 id (ht2s1 ▸ hmem2)
        · have hres := ih h2 op hoprest
          constructor
          · intro pr id hpr hid
            have := (hres.1 pr id hpr hid)
            rw [← h.2]
            exact this
          · intro id hid
            have := hres.2 id hid
            rw [← h.2]
            exact this

/-- Driver-level invariant: like the emitter invariant, but the appended
declarations may also contain `service` declarations (which contribute no
message names). -/
def DriverInv (p : CadlProgram) (N : List (Nat × String))
    (s s2 : EmitState) : Prop :=
  ∃ (V : List (Nat × String)) (E : List ProtoDecl) (D : List Diag),
    s2.visited.Perm (V.map Prod.fst ++ s.visited) ∧
    (V.map Prod.fst).Nodup ∧
    (∀ a ∈ V.map Prod.fst, a ∉ s.visited) ∧
    (∀ x ∈ V, x ∈ N ∨ x ∈ tableNodes p) ∧
    s2.decls = s.decls ++ E ∧
    E.filterMap msgName = V.map Prod.snd ∧
    s2.diags = s.diags ++ D

/-- The emitter invariant implies the driver invariant. -/
theorem DriverInv.of_emit {p : CadlProgram} {N : List (Nat × String)}
    {s s2 : EmitState} (h : EmitInv p N s s2) : DriverInv p N s s2 := by
  obtain ⟨V, E, D, h1, h2, h3, h4, h5, h6, h7, h8⟩ := h
  exact ⟨V, E, D, h1, h2, h3, h4, h5, h7, h8⟩

/-- Pushing one service declaration preserves the driver invariant. -/
theorem DriverInv.push_service (p : CadlProgram)
    (N : List (Nat × String)) (s : EmitState) (nm : String)
    (ms : List ProtoMethod) :
    DriverInv p N s { s with decls := s.decls ++ [.service nm ms] } := by
  refine ⟨[], [.service nm ms], [], by simp, by simp, by simp, by simp,
    by simp, by simp [msgName], by simp⟩

/-- Driver-invariant states compare visited sets by inclusion. -/
theorem DriverInv.visitedSubD {p : CadlProgram} {N : List (Nat × String)}
    {s s2 : EmitState} (h : DriverInv p N s s2) :
    ∀ a ∈ s.visited, a ∈ s2.visited := by
  obtain ⟨V, E, D, h1, -, -, -, -, -, -⟩ := h
  intro a ha
  exact h1.mem_iff.mpr (List.mem_append_right _ ha)

/-- Weakening of the node-pair list for the driver invariant. -/
theorem DriverInv.monoD {p : CadlProgram} {N N2 : List (Nat × String)}
    {s s2 : EmitState} (hsub : ∀ x ∈ N, x ∈ N2)
    (h : DriverInv p N s s2) : DriverInv p N2 s s2 := by
  obtain ⟨V, E, D, h1, h2, h3, h4, h5, h6, h7⟩ := h
  exact ⟨V, E, D, h1, h2, h3,
    fun x hx => (h4 x hx).imp (fun hn => hsub x hn) id, h5, h6, h7⟩

/-- Composition of driver-invariant steps. -/
theorem DriverInv.transD {p : CadlProgram} {N : List (Nat × String)}
    {s s1 s2 : EmitState} (g : DriverInv p N s s1)
    (h : DriverInv p N s1 s2) : DriverInv p N s s2 := by
  obtain ⟨V1, E1, D1, g1, g2, g3, g4, g5, g6, g7⟩ := g
  obtain ⟨V2, E2, D2, h1, h2, h3, h4, h5, h6, h7⟩ := h
  refine ⟨V1 ++ V2, E1 ++ E2, D1 ++ D2, ?_, ?_, ?_, ?_, ?_, ?_, ?_⟩
  · have step1 : s2.visited.Perm
        (V2.map Prod.fst ++ (V1.map Prod.fst ++ s.visited)) :=
      h1.trans (List.Perm.append_left _ g1)
    have step2 : (V2.map Prod.fst ++ V1.map Prod.fst).Perm
        (V1.map Prod.fst ++ V2.map Prod.fst) := List.perm_append_comm
    have step3 : s2.visited.Perm
        ((V2.map Prod.fst ++ V1.map Prod.fst) ++ s.visited) := by
      simpa [List.append_assoc] using step1
    simpa [List.append_assoc] using step3.trans (step2.append_right s.visited)
  · rw [List.map_append, List.nodup_append]
    refine ⟨g2, h2, ?_⟩
    intro a ha hb
    have hmem : a ∈ s1.visited := g1.mem_iff.mpr (List.mem_append_left _ ha)
    exact h3 a hb hmem
  · intro a ha
    rw [List.map_append, List.mem_append] at ha
    rcases ha with ha | ha
    · exact g3 a ha
    · intro hmem
      have : a ∈ s1.visited := g1.mem_iff.mpr (List.mem_append_right _ hmem)
      exact h3 a ha this
  · intro x hx
    rcases List.mem_append.mp hx with hx | hx
    · exact g4 x hx
    · exact h4 x hx
  · rw [h5, g5, List.append_assoc]
  · rw [List.filterMap_append, g6, h6, List.map_append]
  · rw [h7, g7, List.append_assoc]

/-- Characterization of a successful `servicesGo`: the state change
satisfies the driver invariant over the interfaces' node pairs, every
interface appears as a fully projected service declaration, and every
single-property parameter model and model-kinded return type of the
interfaces' operations is visited. -/
theorem servicesGo_char {p : CadlProgram} {fuel : Nat} :
    ∀ {ifaces : List CadlInterface} {s s2 : EmitState},
      servicesGo p fuel ifaces s = some s2 →
      DriverInv p (ifacesNodePairs ifaces) s s2 ∧
      (∀ i ∈ ifaces,
        (ProtoDecl.service i.name (i.operations.map methodSpec)) ∈
          s2.decls) ∧
      (∀ op ∈ opsOfIfaces ifaces,
        (∀ pr id, op.parameters = [pr] → typeId pr.type = some id →
          id ∈ s2.visited) ∧
        (∀ id, typeId op.returnType = some id → id ∈ s2.visited)) := by
  intro ifaces
  induction ifaces with
  | nil =>
    intro s s2 h
    simp only [servicesGo, Option.some.injEq] at h
    refine ⟨h ▸ ⟨[], [], [], by simp, by simp, by simp, by simp, by simp,
      by simp, by simp⟩, ?_, ?_⟩
    · intro i hi; cases hi
    · intro op hop; cases hop
  | cons i0 rest ih =>
    intro s s2 h
    simp only [servicesGo] at h
    cases h1 : toMethodsGo p fuel i0.operations s with
    | none => rw [h1] at h; simp at h
    | some pair1 =>
      obtain ⟨ms, s1⟩ := pair1
      rw [h1] at h
      simp only at h
      obtain ⟨hms, hinv1⟩ := toMethodsGo_char h1
      have hinv1d : DriverInv p (ifacesNodePairs (i0 :: rest)) s s1 :=
        (DriverInv.of_emit hinv1).monoD (fun x hx => by
          simp only [ifacesNodePairs, List.mem_append]
          exact Or.inl hx)
      have hpush : DriverInv p (ifacesNodePairs (i0 :: rest)) s1
          { s1 with decls := s1.decls ++ [.service i0.name ms] } :=
        DriverInv.push_service p _ s1 i0.name ms
      obtain ⟨hinv2, hsvc2, hvis2⟩ := ih h
      have hinv2d : DriverInv p (ifacesNodePairs (i0 :: rest))
          { s1 with decls := s1.decls ++ [.service i0.name ms] } s2 :=
        hinv2.monoD (fun x hx => by
          simp only [ifacesNodePairs, List.mem_append]
          exact Or.inr hx)
      refine ⟨(hinv1d.transD hpush).transD hinv2d, ?_, ?_⟩
      · intro i hi
        rcases List.mem_cons.mp hi with hieq | hirest
        · subst hieq
          obtain ⟨V, E, D, -, -, -, -, hdecl, -, -⟩ := hinv2d
          rw [hdecl, hms]
          simp
        · exact hsvc2 i hirest
      · intro op hop
        rcases List.mem_append.mp hop with hop0 | hoprest
        · have hv := toMethodsGo_visits h1 op hop0
          have hsub : ∀ a ∈ s1.visited, a ∈ s2.visited := by
            intro a ha
            exact hinv2d.visitedSubD a ha
          exact ⟨fun pr id hpr hid => hsub id (hv.1 pr id hpr hid),
            fun id hid => hsub id (hv.2 id hid)⟩
        · exact hvis2 op hoprest

/-- Sufficient fuel for `addModelAsInput`. -/
theorem addModelAsInput_suff {p : CadlProgram} {U : List Nat} {fuel : Nat}
    (hU : U.Nodup) (hTab : ∀ x ∈ tableNodes p, x.1 ∈ U)
    {params : List Property} {s : EmitState}
    (hcov : ∀ x ∈ nodePairsOfProps params, x.1 ∈ U)
    (hcount : unvisitedCount U s.visited < fuel) :
    addModelAsInput p fuel params s ≠ none := by
  match params with
  | [] => simp [addModelAsInput]
  | pr :: pr2 :: rest => simp [addModelAsInput]
  | [pr] =>
    obtain ⟨pid, pname, ptype⟩ := pr
    have hcovt : ∀ x ∈ nodePairsOfType ptype, x.1 ∈ U := fun x hx =>
      hcov x (by
        simp only [nodePairsOfProps, List.mem_append]
        exact Or.inl hx)
    have hsv := (emit_suff p U hU hTab fuel).1
    cases ptype with
    | other kd => simp [addModelAsInput]
    | intrinsic i n =>
      have h1 := hsv (.intrinsic i n) s hcovt hcount
      cases hvt : visitType p fuel (.intrinsic i n) s with
      | none => exact absurd hvt h1
      | some s3 => simp [addModelAsInput, hvt]
    | intrinsicMap i args =>
      have h1 := hsv (.intrinsicMap i args) s hcovt hcount
      cases hvt : visitType p fuel (.intrinsicMap i args) s with
      | none => exact absurd hvt h1
      | some s3 => simp [addModelAsInput, hvt]
    | modelRef i n =>
      have h1 := hsv (.modelRef i n) s hcovt hcount
      cases hvt : visitType p fuel (.modelRef i n) s with
      | none => exact absurd hvt h1
      | some s3 => simp [addModelAsInput, hvt]

/-- Sufficient fuel for `addReturnType`. -/
theorem addReturnType_suff {p : CadlProgram} {U : List Nat} {fuel : Nat}
    (hU : U.Nodup) (hTab : ∀ x ∈ tableNodes p, x.1 ∈ U)
    {t : CadlType} {s : EmitState}
    (hcov : ∀ x ∈ nodePairsOfType t, x.1 ∈ U)
    (hcount : unvisitedCount U s.visited < fuel) :
    addReturnType p fuel t s ≠ none := by
  have hsv := (emit_suff p U hU hTab fuel).1
  cases t with
  | other kd => simp [addReturnType]
  | intrinsic i n =>
    have h1 := hsv (.intrinsic i n) s hcov hcount
    cases hvt : visitType p fuel (.intrinsic i n) s with
    | none => exact absurd hvt h1
    | some s3 => simp [addReturnType, hvt]
  | intrinsicMap i args =>
    have h1 := hsv (.intrinsicMap i args) s hcov hcount
    cases hvt : visitType p fuel (.intrinsicMap i args) s with
    | none => exact absurd hvt h1
    | some s3 => simp [addReturnType, hvt]
  | modelRef i n =>
    have h1 := hsv (.modelRef i n) s hcov hcount
    cases hvt : visitType p fuel (.modelRef i n) s with
    | none => exact absurd hvt h1
    | some s3 => simp [addReturnType, hvt]

/-- Sufficient fuel for `toMethodFromOperation`. -/
theorem toMethodFromOperation_suff {p : CadlProgram} {U : List Nat}
    {fuel : Nat} (hU : U.Nodup) (hTab : ∀ x ∈ tableNodes p, x.1 ∈ U)
    {op : CadlOperation} {s : EmitState}
    (hcov : ∀ x ∈ opNodePairs op, x.1 ∈ U)
    (hcount : unvisitedCount U s.visited < fuel) :
    toMethodFromOperation p fuel op s ≠ none := by
  have hcov1 : ∀ x ∈ nodePairsOfProps op.parameters, x.1 ∈ U := fun x hx =>
    hcov x (by
      simp only [opNodePairs, List.mem_append]
      exact Or.inl hx)
  have hcov2 : ∀ x ∈ nodePairsOfType op.returnType, x.1 ∈ U := fun x hx =>
    hcov x (by
      simp only [opNodePairs, List.mem_append]
      exact Or.inr hx)
  have h1 := addModelAsInput_suff hU hTab hcov1 hcount
  cases g1 : addModelAsInput p fuel op.parameters s with
  | none => exact absurd g1 h1
  | some pair1 =>
    obtain ⟨inp, s1⟩ := pair1
    have hcount1 : unvisitedCount U s1.visited < fuel :=
      lt_of_le_of_lt
        (unvisitedCount_le (addModelAsInput_inv g1).visited_sub) hcount
    have h2 := addReturnType_suff hU hTab hcov2 hcount1
    cases g2 : addReturnType p fuel op.returnType s1 with
    | none => exact absurd g2 h2
    | some pair2 => simp [toMethodFromOperation, g1, g2]

/-- Sufficient fuel for `toMethodsGo`. -/
theorem toMethodsGo_suff {p : CadlProgram} {U : List Nat} {fuel : Nat}
    (hU : U.Nodup) (hTab : ∀ x ∈ tableNodes p, x.1 ∈ U) :
    ∀ {ops : List CadlOperation} {s : EmitState},
      (∀ x ∈ opsNodePairs ops, x.1 ∈ U) →
      unvisitedCount U s.visited < fuel →
      toMethodsGo p fuel ops s ≠ none := by
  intro ops
  induction ops with
  | nil => intro s hcov hcount; simp [toMethodsGo]
  | cons op rest ih =>
    intro s hcov hcount
    have hcov1 : ∀ x ∈ opNodePairs op, x.1 ∈ U := fun x hx =>
      hcov x (by
        simp only [opsNodePairs, List.mem_append]
        exact Or.inl hx)
    have hcov2 : ∀ x ∈ opsNodePairs rest, x.1 ∈ U := fun x hx =>
      hcov x (by
        simp only [opsNodePairs, List.mem_append]
        exact Or.inr hx)
    have h1 := toMethodFromOperation_suff hU hTab hcov1 hcount
    cases g1 : toMethodFromOperation p fuel op s with
    | none => exact absurd g1 h1
    | some pair1 =>
      obtain ⟨m, s1⟩ := pair1
      have hcount1 : unvisitedCount U s1.visited < fuel :=
        lt_of_le_of_lt
          (unvisitedCount_le (toMethodFromOperation_char g1).2.visited_sub)
          hcount
      have h2 := ih hcov2 hcount1
      cases g2 : toMethodsGo p fuel rest s1 with
      | none => exact absurd g2 h2
      | some pair2 => simp [toMethodsGo, g1, g2]

/-- Sufficient fuel for `servicesGo`. -/
theorem servicesGo_suff {p : CadlProgram} {U : List Nat} {fuel : Nat}
    (hU : U.Nodup) (hTab : ∀ x ∈ tableNodes p, x.1 ∈ U) :
    ∀ {ifaces : List CadlInterface} {s : EmitState},
      (∀ x ∈ ifacesNodePairs ifaces, x.1 ∈ U) →
      unvisitedCount U s.visited < fuel →
      servicesGo p fuel ifaces s ≠ none := by
  intro ifaces
  induction ifaces with
  | nil => intro s hcov hcount; simp [servicesGo]
  | cons i0 rest ih =>
    intro s hcov hcount
    have hcov1 : ∀ x ∈ opsNodePairs i0.operations, x.1 ∈ U := fun x hx =>
      hcov x (by
        simp only [ifacesNodePairs, List.mem_append]
        exact Or.inl hx)
    have hcov2 : ∀ x ∈ ifacesNodePairs rest, x.1 ∈ U := fun x hx =>
      hcov x (by
        simp only [ifacesNodePairs, List.mem_append]
        exact Or.inr hx)
    have h1 := toMethodsGo_suff hU hTab hcov1 hcount
    cases g1 : toMethodsGo p fuel i0.operations s with
    | none => exact absurd g1 h1
    | some pair1 =>
      obtain ⟨ms, s1⟩ := pair1
      have hcount1 : unvisitedCount U
          ({ s1 with
              decls := s1.decls ++ [ProtoDecl.service i0.name ms] }).visited
          < fuel := by
        have : unvisitedCount U s1.visited < fuel :=
          lt_of_le_of_lt
            (unvisitedCount_le (toMethodsGo_char g1).2.visited_sub) hcount
        simpa using this
      have h2 := ih hcov2 hcount1
      simp only [servicesGo, g1]
      exact h2

mutual

/-- Size measure of a namespace tree. -/
def nsSize : CadlNamespace → Nat
  | .mk _ _ _ children => 1 + nsListSize children

/-- Size measure of a list of namespace trees. -/
def nsListSize : List CadlNamespace → Nat
  | [] => 0
  | c :: rest => nsSize c + nsListSize rest

end

/-- The node pairs of the operations of any member of an interface list
occur among that list's node pairs. -/
theorem opsNodePairs_sub_ifaces {i : CadlInterface} :
    ∀ {l : List CadlInterface}, i ∈ l →
      ∀ x ∈ opsNodePairs i.operations, x ∈ ifacesNodePairs l := by
  intro l
  induction l with
  | nil => intro h; cases h
  | cons j rest ih =>
    intro h x hx
    simp only [ifacesNodePairs, List.mem_append]
    rcases List.mem_cons.mp h with heq | hrest
    · subst heq
      exact Or.inl hx
    · exact Or.inr (ih hrest x hx)

/-- Interfaces collected by `recursiveAddInterfaces` have all their
operations' node pairs among the namespace's node pairs (and likewise for
the list traversal). -/
theorem collect_pairs_sub (p : CadlProgram) : ∀ n,
    (∀ ns, nsSize ns ≤ n → ∀ i ∈ recursiveAddInterfaces p ns,
      ∀ x ∈ opsNodePairs i.operations, x ∈ nsNodePairs ns) ∧
    (∀ l, nsListSize l ≤ n → ∀ i ∈ recursiveAddInterfacesList p l,
      ∀ x ∈ opsNodePairs i.operations, x ∈ nsListNodePairs l) := by
  intro n
  induction n with
  | zero =>
    constructor
    · intro ns hns
      exact absurd hns (by cases ns; simp [nsSize])
    · intro l hl i hi
      cases l with
      | nil => simp [recursiveAddInterfacesList] at hi
      | cons c rest =>
        exact absurd hl (by
          cases c
          simp [nsListSize, nsSize])
  | succ n ih =>
    have hns : ∀ ns, nsSize ns ≤ n + 1 →
        ∀ i ∈ recursiveAddInterfaces p ns,
        ∀ x ∈ opsNodePairs i.operations, x ∈ nsNodePairs ns := by
      intro ns hsize i hi x hx
      obtain ⟨nid, nname, ifaces, children⟩ := ns
      simp only [recursiveAddInterfaces] at hi
      simp only [nsNodePairs, List.mem_append]
      rcases List.mem_append.mp hi with hi1 | hi2
      · have himem : i ∈ ifaces := List.mem_of_mem_filter hi1
        exact Or.inl (opsNodePairs_sub_ifaces himem x hx)
      · have hlsize : nsListSize children ≤ n := by
          simp only [nsSize] at hsize
          omega
        exact Or.inr (ih.2 children hlsize i hi2 x hx)
    refine ⟨hns, ?_⟩
    intro l hl i hi x hx
    cases l with
    | nil => simp [recursiveAddInterfacesList] at hi
    | cons c rest =>
      simp only [recursiveAddInterfacesList] at hi
      simp only [nsListNodePairs, List.mem_append]
      have hc1 : 1 ≤ nsSize c := by cases c; simp [nsSize]
      rcases List.mem_append.mp hi with hi1 | hi2
      · by_cases hpkg : c.nsId ∈ packageIds p
        · rw [if_pos hpkg] at hi1
          cases hi1
        · rw [if_neg hpkg] at hi1
          have hcsize : nsSize c ≤ n + 1 := by
            simp only [nsListSize] at hl
            omega
          exact Or.inl (hns c hcsize i hi1 x hx)
      · have hrsize : nsListSize rest ≤ n := by
          simp only [nsListSize] at hl
          omega
        exact Or.inr (ih.2 rest hrsize i hi2 x hx)

/-- The node pairs of a package's namespace occur among the node pairs of
the package list containing it. -/
theorem nsNodePairs_sub_packages {ns : CadlNamespace} {nm : String} :
    ∀ {pkgs : List (CadlNamespace × String)}, (ns, nm) ∈ pkgs →
      ∀ x ∈ nsNodePairs ns, x ∈ packagesNodePairs pkgs := by
  intro pkgs
  induction pkgs with
  | nil => intro h; cases h
  | cons hd rest ih =>
    obtain ⟨ns2, nm2⟩ := hd
    intro h x hx
    simp only [packagesNodePairs, List.mem_append]
    rcases List.mem_cons.mp h with heq | hrest
    · obtain ⟨heq1, heq2⟩ := Prod.mk.injEq .. ▸ heq
      exact Or.inl (heq1 ▸ hx)
    · exact Or.inr (ih hrest x hx)

/-- Membership in the node pairs of an interface list comes from some
member interface. -/
theorem ifacesNodePairs_mem_split {x : Nat × String} :
    ∀ {l : List CadlInterface}, x ∈ ifacesNodePairs l →
      ∃ i ∈ l, x ∈ opsNodePairs i.operations := by
  intro l
  induction l with
  | nil => intro h; simp [ifacesNodePairs] at h
  | cons i rest ih =>
    intro h
    rcases List.mem_append.mp h with h1 | h2
    · exact ⟨i, List.mem_cons_self i rest, h1⟩
    · obtain ⟨j, hj, hx⟩ := ih h2
      exact ⟨j, List.mem_cons_of_mem i hj, hx⟩

/-- Sufficient fuel for `declarationsFromNamespace`, for a covering
universe. -/
theorem declarationsFromNamespace_suff {p : CadlProgram} {U : List Nat}
    {fuel : Nat} (hU : U.Nodup) (hTab : ∀ x ∈ tableNodes p, x.1 ∈ U)
    (ns : CadlNamespace) (diags : List Diag)
    (hcov : ∀ x ∈ nsNodePairs ns, x.1 ∈ U)
    (hcount : unvisitedCount U [] < fuel) :
    declarationsFromNamespace p fuel ns diags ≠ none := by
  have hcovifaces : ∀ x ∈ ifacesNodePairs (recursiveAddInterfaces p ns),
      x.1 ∈ U := by
    intro x hx
    obtain ⟨i, hi, hxop⟩ := ifacesNodePairs_mem_split hx
    have hpairs := (collect_pairs_sub p (nsSize ns)).1 ns le_rfl i hi x hxop
    exact hcov x hpairs
  have hcount0 : unvisitedCount U
      (⟨[], [], diags⟩ : EmitState).visited < fuel := hcount
  have h1 := servicesGo_suff hU hTab hcovifaces hcount0
  cases g1 : servicesGo p fuel (recursiveAddInterfaces p ns)
      ⟨[], [], diags⟩ with
  | none => exact absurd g1 h1
  | some s2 => simp [declarationsFromNamespace, g1]

/-- Sufficient fuel for the per-package loop of `cadlToProto`. -/
theorem cadlToProtoGo_suff {p : CadlProgram} {U : List Nat} {fuel : Nat}
    (hU : U.Nodup) (hTab : ∀ x ∈ tableNodes p, x.1 ∈ U) :
    ∀ {pkgs : List (CadlNamespace × String)} (diags : List Diag),
      (∀ x ∈ packagesNodePairs pkgs, x.1 ∈ U) →
      unvisitedCount U [] < fuel →
      cadlToProtoGo p fuel pkgs diags ≠ none := by
  intro pkgs
  induction pkgs with
  | nil => intro diags hcov hcount; simp [cadlToProtoGo]
  | cons hd rest ih =>
    obtain ⟨ns, packageName⟩ := hd
    intro diags hcov hcount
    have hcov1 : ∀ x ∈ nsNodePairs ns, x.1 ∈ U := fun x hx =>
      hcov x (by
        simp only [packagesNodePairs, List.mem_append]
        exact Or.inl hx)
    have hcov2 : ∀ x ∈ packagesNodePairs rest, x.1 ∈ U := fun x hx =>
      hcov x (by
        simp only [packagesNodePairs, List.mem_append]
        exact Or.inr hx)
    have h1 := declarationsFromNamespace_suff hU hTab ns diags hcov1
      hcount
    cases g1 : declarationsFromNamespace p fuel ns diags with
    | none => exact absurd g1 h1
    | some pair1 =>
      obtain ⟨decls, diags1⟩ := pair1
      have h2 := ih diags1 hcov2 hcount
      cases g2 : cadlToProtoGo p fuel rest diags1 with
      | none => exact absurd g2 h2
      | some pair2 => simp [cadlToProtoGo, g1, g2]

/-- With an empty visited set the unvisited count is the whole universe. -/
theorem unvisitedCount_nil (U : List Nat) :
    unvisitedCount U [] = U.length := by
  simp [unvisitedCount]

/-- The whole lowering pass runs to completion whenever the fuel exceeds
the number of distinct model-kinded node identities of the program. -/
theorem cadlToProto_total (p : CadlProgram) {fuel : Nat}
    (hfuel : (programIds p).length < fuel) :
    cadlToProto p fuel ≠ none := by
  have hU : (programIds p).Nodup := List.nodup_dedup _
  have hTab : ∀ x ∈ tableNodes p, x.1 ∈ programIds p := by
    intro x hx
    have hprog : x ∈ programNodePairs p := by
      simp only [programNodePairs, List.mem_append]
      exact Or.inl hx
    exact List.mem_dedup.mpr (List.mem_map_of_mem Prod.fst hprog)
  have hcov : ∀ x ∈ packagesNodePairs p.packages, x.1 ∈ programIds p := by
    intro x hx
    have hprog : x ∈ programNodePairs p := by
      simp only [programNodePairs, List.mem_append]
      exact Or.inr hx
    exact List.mem_dedup.mpr (List.mem_map_of_mem Prod.fst hprog)
  have hcount : unvisitedCount (programIds p) [] < fuel := by
    rw [unvisitedCount_nil]
    exact hfuel
  exact cadlToProtoGo_suff hU hTab [] hcov hcount

/-- Node pairs of a member operation occur among the list's node pairs. -/
theorem opNodePairs_sub_ops {op : CadlOperation} :
    ∀ {ops : List CadlOperation}, op ∈ ops →
      ∀ x ∈ opNodePairs op, x ∈ opsNodePairs ops := by
  intro ops
  induction ops with
  | nil => intro h; cases h
  | cons op2 rest ih =>
    intro h x hx
    simp only [opsNodePairs, List.mem_append]
    rcases List.mem_cons.mp h with heq | hrest
    · subst heq
      exact Or.inl hx
    · exact Or.inr (ih hrest x hx)

/-- Operations of member interfaces are members of the flattened
operation list. -/
theorem mem_opsOfIfaces {i : CadlInterface} {op : CadlOperation} :
    ∀ {l : List CadlInterface}, i ∈ l → op ∈ i.operations →
      op ∈ opsOfIfaces l := by
  intro l
  induction l with
  | nil => intro h; cases h
  | cons j rest ih =>
    intro h hop
    simp only [opsOfIfaces, List.mem_append]
    rcases List.mem_cons.mp h with heq | hrest
    · subst heq
      exact Or.inl hop
    · exact Or.inr (ih hrest hop)

/-- A name in the message-name projection of a declaration list comes from
a message declaration with that name. -/
theorem msg_of_filterMap {nm : String} {E : List ProtoDecl}
    (h : nm ∈ E.filterMap msgName) :
    ∃ flds, ProtoDecl.message nm flds ∈ E := by
  obtain ⟨d, hd, hnm⟩ := List.mem_filterMap.mp h
  cases d with
  | service n ops => simp [msgName] at hnm
  | message n flds =>
    simp only [msgName, Option.some.injEq] at hnm
    exact ⟨flds, hnm ▸ hd⟩

/-- The input reference of a single model-kinded parameter. -/
theorem inputSpec_model {params : List Property} {pr : Property} {id : Nat}
    (hp : params = [pr]) (hid : typeId pr.type = some id) :
    inputSpec params = .ref (typeNameD pr.type) := by
  subst hp
  obtain ⟨pid, pname, ptype⟩ := pr
  cases ptype <;> simp_all [inputSpec, typeId, typeNameD]

/-- The return reference of a model-kinded return type. -/
theorem returnSpec_model {t : CadlType} {id : Nat}
    (hid : typeId t = some id) : returnSpec t = .ref (typeNameD t) := by
  cases t <;> simp_all [returnSpec, typeId, typeNameD]

/-- A non-placeholder input reference comes from a single model-kinded
parameter. -/
theorem inputSpec_ref_inv {params : List Property} {r : String}
    (h : inputSpec params = .ref r) (hr : r ≠ "<unreachable>") :
    ∃ pr id, params = [pr] ∧ typeId pr.type = some id ∧
      r = typeNameD pr.type := by
  match params with
  | [] =>
    exfalso
    apply hr
    simp only [inputSpec, ProtoType.ref.injEq] at h
    exact h.symm
  | pr1 :: pr2 :: rest =>
    exfalso
    apply hr
    simp only [inputSpec, ProtoType.ref.injEq] at h
    exact h.symm
  | [pr] =>
    obtain ⟨pid, pname, ptype⟩ := pr
    cases ptype with
    | other kd =>
      exfalso
      apply hr
      simp only [inputSpec, ProtoType.ref.injEq] at h
      exact h.symm
    | intrinsic i n =>
      refine ⟨⟨pid, pname, .intrinsic i n⟩, i, rfl, rfl, ?_⟩
      simp only [inputSpec, ProtoType.ref.injEq] at h
      exact h.symm
    | intrinsicMap i args =>
      refine ⟨⟨pid, pname, .intrinsicMap i args⟩, i, rfl, rfl, ?_⟩
      simp only [inputSpec, ProtoType.ref.injEq] at h
      exact h.symm
    | modelRef i n =>
      refine ⟨⟨pid, pname, .modelRef i n⟩, i, rfl, rfl, ?_⟩
      simp only [inputSpec, ProtoType.ref.injEq] at h
      exact h.symm

/-- A non-placeholder return reference comes from a model-kinded return
type. -/
theorem returnSpec_ref_inv {t : CadlType} {r : String}
    (h : returnSpec t = .ref r) (hr : r ≠ "<unreachable>") :
    ∃ id, typeId t = some id ∧ r = typeNameD t := by
  cases t with
  | other kd =>
    exfalso
    apply hr
    simp only [returnSpec, ProtoType.ref.injEq] at h
    exact h.symm
  | intrinsic i n =>
    refine ⟨i, rfl, ?_⟩
    simp only [returnSpec, ProtoType.ref.injEq] at h
    exact h.symm
  | intrinsicMap i args =>
    refine ⟨i, rfl, ?_⟩
    simp only [returnSpec, ProtoType.ref.injEq] at h
    exact h.symm
  | modelRef i n =>
    refine ⟨i, rfl, ?_⟩
    simp only [returnSpec, ProtoType.ref.injEq] at h
    exact h.symm

/-- Whether a declaration is a message with the given name. -/
def isMsgNamed (nm : String) : ProtoDecl → Bool
  | .message n _ => n = nm
  | .service _ _ => false

/-- Number of message declarations with the given name. -/
def countMsgsNamed (nm : String) (decls : List ProtoDecl) : Nat :=
  (decls.filter (isMsgNamed nm)).length

/-- Counting messages by name factors through the message-name
projection. -/
theorem countMsgsNamed_eq_names (nm : String) :
    ∀ E : List ProtoDecl, countMsgsNamed nm E =
      ((E.filterMap msgName).filter (fun x => x = nm)).length := by
  intro E
  induction E with
  | nil => rfl
  | cons d rest ih =>
    cases d with
    | service n ops =>
      simp only [countMsgsNamed, List.filterMap_cons, msgName] at *
      rw [List.filter_cons]
      simp only [isMsgNamed, Bool.false_eq_true, if_false]
      exact ih
    | message n flds =>
      simp only [countMsgsNamed, List.filterMap_cons, msgName] at *
      rw [List.filter_cons, List.filter_cons]
      by_cases hn : n = nm
      · subst hn
        simp [isMsgNamed, ih]
      · simp [isMsgNamed, hn, ih]

/-- A list of pairs with duplicate-free keys, in which the pairs carrying
a given second component all share one key, has exactly one occurrence of
that second component when it occurs at all. -/
theorem count_snd_eq_one {nm : String} {mid : Nat} :
    ∀ {V : List (Nat × String)}, (V.map Prod.fst).Nodup →
      (mid, nm) ∈ V → (∀ x ∈ V, x.2 = nm → x.1 = mid) →
      ((V.map Prod.snd).filter (fun x => x = nm)).length = 1 := by
  intro V
  induction V with
  | nil => intro hnd hmem; cases hmem
  | cons hd rest ih =>
    obtain ⟨i0, n0⟩ := hd
    intro hnd hmem hkey
    have hnd2 := List.nodup_cons.mp hnd
    by_cases hn0 : n0 = nm
    · have hi0 : i0 = mid := hkey (i0, n0) (List.mem_cons_self _ _) hn0
      have hnone : ∀ x ∈ rest, x.2 ≠ nm := by
        intro x hx hxnm
        have hx1 : x.1 = mid := hkey x (List.mem_cons_of_mem _ hx) hxnm
        apply hnd2.1
        have hmm : x.1 ∈ List.map Prod.fst rest :=
          List.mem_map_of_mem Prod.fst hx
        rw [hx1] at hmm
        simpa [hi0] using hmm
      have hz : ((rest.map Prod.snd).filter (fun x => x = nm)).length
          = 0 := by
        rw [List.length_eq_zero, List.filter_eq_nil_iff]
        intro a ha
        obtain ⟨x, hx, hxa⟩ := List.mem_map.mp ha
        simp only [decide_eq_true_eq]
        rw [← hxa]
        exact hnone x hx
      subst hn0
      simp only [List.map_cons, List.filter_cons, decide_eq_true_eq,
        List.length_cons]
      simp [hz]
    · have hmem2 : (mid, nm) ∈ rest := by
        rcases List.mem_cons.mp hmem with heq | h2
        · exfalso
          apply hn0
          exact ((Prod.mk.injEq .. ▸ heq).2).symm
        · exact h2
      have hkey2 : ∀ x ∈ rest, x.2 = nm → x.1 = mid := fun x hx =>
        hkey x (List.mem_cons_of_mem _ hx)
      simp only [List.map_cons, List.filter_cons, decide_eq_true_eq, hn0,
        if_false]
      exact ih hnd2.2 hmem2 hkey2

/-- The model-kinded node pairs a file's translation can encounter: the
node pairs written in the namespace tree plus those reachable through the
model table. -/
def nodeSetNs (p : CadlProgram) (ns : CadlNamespace) : List (Nat × String) :=
  nsNodePairs ns ++ tableNodes p

/-- Node pairs of collected interfaces lie in the file's node set. -/
theorem collected_pairs_mem_nodeSet {p : CadlProgram} {ns : CadlNamespace}
    {x : Nat × String}
    (hx : x ∈ ifacesNodePairs (recursiveAddInterfaces p ns)) :
    x ∈ nodeSetNs p ns := by
  obtain ⟨i, hi, hxop⟩ := ifacesNodePairs_mem_split hx
  have hpairs := (collect_pairs_sub p (nsSize ns)).1 ns le_rfl i hi x hxop
  simp only [nodeSetNs, List.mem_append]
  exact Or.inl hpairs

/-- The self pair of a single model-kinded parameter of a collected
operation lies in the file's node set. -/
theorem input_pair_mem_nodeSet {p : CadlProgram} {ns : CadlNamespace}
    {iB : CadlInterface} {opB : CadlOperation} {prB : Property} {id : Nat}
    (hiB : iB ∈ recursiveAddInterfaces p ns) (hopB : opB ∈ iB.operations)
    (hparB : opB.parameters = [prB]) (hidB : typeId prB.type = some id) :
    (id, typeNameD prB.type) ∈ nodeSetNs p ns := by
  have hself : (id, typeNameD prB.type) ∈ nodePairsOfType prB.type :=
    self_pair_mem hidB
  have h1 : (id, typeNameD prB.type) ∈ nodePairsOfProps opB.parameters := by
    rw [hparB]
    simp only [nodePairsOfProps, List.mem_append]
    exact Or.inl hself
  have h2 : (id, typeNameD prB.type) ∈ opNodePairs opB := by
    simp only [opNodePairs, List.mem_append]
    exact Or.inl h1
  have h3 := opNodePairs_sub_ops hopB _ h2
  have h4 := (collect_pairs_sub p (nsSize ns)).1 ns le_rfl iB hiB _ h3
  simp only [nodeSetNs, List.mem_append]
  exact Or.inl h4

/-- The self pair of a model-kinded return type of a collected operation
lies in the file's node set. -/
theorem return_pair_mem_nodeSet {p : CadlProgram} {ns : CadlNamespace}
    {iB : CadlInterface} {opB : CadlOperation} {id : Nat}
    (hiB : iB ∈ recursiveAddInterfaces p ns) (hopB : opB ∈ iB.operations)
    (hidB : typeId opB.returnType = some id) :
    (id, typeNameD opB.returnType) ∈ nodeSetNs p ns := by
  have hself : (id, typeNameD opB.returnType) ∈
      nodePairsOfType opB.returnType := self_pair_mem hidB
  have h2 : (id, typeNameD opB.returnType) ∈ opNodePairs opB := by
    simp only [opNodePairs, List.mem_append]
    exact Or.inr hself
  have h3 := opNodePairs_sub_ops hopB _ h2
  have h4 := (collect_pairs_sub p (nsSize ns)).1 ns le_rfl iB hiB _ h3
  simp only [nodeSetNs, List.mem_append]
  exact Or.inl h4

/-- The operation reaches the model node with identity `mid`, recorded
under the name `nm` at the referencing node: either the operation's single
input parameter has that model-kinded type, or its return type is that
model-kinded node.  These are exactly the two positions from which
`toMethodFromOperation` visits models. -/
def opRefsModel (op : CadlOperation) (mid : Nat) (nm : String) : Prop :=
  (∃ pr, op.parameters = [pr] ∧ typeId pr.type = some mid ∧
    typeNameD pr.type = nm) ∨
  (typeId op.returnType = some mid ∧ typeNameD op.returnType = nm)

/-- A referencing operation of a collected interface puts the referenced
node's pair in the file's node set. -/
theorem ref_pair_mem_nodeSet {p : CadlProgram} {ns : CadlNamespace}
    {iA : CadlInterface} {opA : CadlOperation} {mid : Nat} {nm : String}
    (hiA : iA ∈ recursiveAddInterfaces p ns) (hopA : opA ∈ iA.operations)
    (hAref : opRefsModel opA mid nm) : (mid, nm) ∈ nodeSetNs p ns := by
  rcases hAref with ⟨pr, hpar, hid, hnm⟩ | ⟨hid, hnm⟩
  · have hmem := input_pair_mem_nodeSet hiA hopA hpar hid
    rw [hnm] at hmem
    exact hmem
  · have hmem := return_pair_mem_nodeSet hiA hopA hid
    rw [hnm] at hmem
    exact hmem

/-- Core uniqueness: in a file whose node pairs are name-coherent and
name-injective, a model reached as the single input parameter or as the
return type of a collected operation has exactly one message declaration
under its name, and the collected interface appears as a fully projected
service declaration. -/
theorem declarationsFromNamespace_unique {p : CadlProgram} {fuel : Nat}
    {ns : CadlNamespace} {diags : List Diag} {decls : List ProtoDecl}
    {diags2 : List Diag}
    (h : declarationsFromNamespace p fuel ns diags = some (decls, diags2))
    (hcoh : ∀ x ∈ nodeSetNs p ns, ∀ y ∈ nodeSetNs p ns,
      x.1 = y.1 → x.2 = y.2)
    (hinj : ∀ x ∈ nodeSetNs p ns, ∀ y ∈ nodeSetNs p ns,
      x.2 = y.2 → x.1 = y.1)
    {iA : CadlInterface} {opA : CadlOperation} {mid : Nat} {nmA : String}
    (hiA : iA ∈ recursiveAddInterfaces p ns) (hopA : opA ∈ iA.operations)
    (hAref : opRefsModel opA mid nmA) :
    countMsgsNamed nmA decls = 1 ∧
    ProtoDecl.service iA.name (iA.operations.map methodSpec) ∈ decls := by
  simp only [declarationsFromNamespace] at h
  cases g1 : servicesGo p fuel (recursiveAddInterfaces p ns)
      ⟨[], [], diags⟩ with
  | none => rw [g1] at h; simp at h
  | some s2 =>
    rw [g1] at h
    simp only [Option.some.injEq, Prod.mk.injEq] at h
    obtain ⟨hinv, hsvc, hvis⟩ := servicesGo_char g1
    obtain ⟨V, E, D, p1, p2, p3, p4, p5, p6, p7⟩ := hinv
    have hmid : mid ∈ s2.visited := by
      rcases hAref with ⟨pr, hpar, hid, hnm⟩ | ⟨hid, hnm⟩
      · exact (hvis opA (mem_opsOfIfaces hiA hopA)).1 pr mid hpar hid
      · exact (hvis opA (mem_opsOfIfaces hiA hopA)).2 mid hid
    have hmidV : mid ∈ V.map Prod.fst := by
      have hmm := p1.mem_iff.mp hmid
      simpa using hmm
    obtain ⟨x, hxV, hx1⟩ := List.mem_map.mp hmidV
    have horigin : ∀ y ∈ V, y ∈ nodeSetNs p ns := by
      intro y hy
      rcases p4 y hy with hcase | hcase
      · exact collected_pairs_mem_nodeSet hcase
      · simp only [nodeSetNs, List.mem_append]
        exact Or.inr hcase
    have hAnode : (mid, nmA) ∈ nodeSetNs p ns :=
      ref_pair_mem_nodeSet hiA hopA hAref
    have hx2 : x.2 = nmA :=
      hcoh x (horigin x hxV) (mid, nmA) hAnode hx1
    have hxpair : (mid, nmA) ∈ V := by
      have hxeq : x = (mid, nmA) := by
        obtain ⟨a, b⟩ := x
        simp only at hx1 hx2
        rw [hx1, hx2]
      rw [← hxeq]
      exact hxV
    have hkey : ∀ y ∈ V, y.2 = nmA → y.1 = mid := by
      intro y hy hy2
      exact hinj y (horigin y hy) (mid, nmA) hAnode hy2
    have hdecls : decls = E := by
      rw [← h.1, p5]
      simp
    constructor
    · rw [hdecls, countMsgsNamed_eq_names, p6]
      exact count_snd_eq_one p2 hxpair hkey
    · rw [← h.1]
      exact hsvc iA hiA

/-- Each visited model id has a message declaration under a name the node
set associates with it. -/
def VisitedMsgs (nodeSet : List (Nat × String)) (s : EmitState) : Prop :=
  ∀ id ∈ s.visited, ∃ nm flds, (id, nm) ∈ nodeSet ∧
    ProtoDecl.message nm flds ∈ s.decls

/-- Every service declaration's non-placeholder input and return
references name a message declared strictly earlier in the list. -/
def OrderedOk (decls : List ProtoDecl) : Prop :=
  ∀ (j : Nat) (nm : String) (ops : List ProtoMethod),
    decls[j]? = some (ProtoDecl.service nm ops) →
    ∀ m ∈ ops, ∀ r : String, r ≠ "<unreachable>" →
      (m.input = .ref r ∨ m.returns = .ref r) →
      ∃ (k : Nat) (flds : List ProtoField), k < j ∧
        decls[k]? = some (ProtoDecl.message r flds)

/-- An emitter step whose new node pairs lie in the node set preserves the
visited-message invariant. -/
theorem VisitedMsgs.step {p : CadlProgram} {N nodeSet : List (Nat × String)}
    {s s2 : EmitState} (hinv : EmitInv p N s s2)
    (hN : ∀ x ∈ N, x ∈ nodeSet)
    (hTab : ∀ x ∈ tableNodes p, x ∈ nodeSet)
    (h : VisitedMsgs nodeSet s) : VisitedMsgs nodeSet s2 := by
  obtain ⟨V, E, D, p1, p2, p3, p4, p5, p6, p7, p8⟩ := hinv
  intro id hid
  have hmem := p1.mem_iff.mp hid
  rcases List.mem_append.mp hmem with hnew | hold
  · obtain ⟨x, hxV, hx1⟩ := List.mem_map.mp hnew
    have hxnode : x ∈ nodeSet := by
      rcases p4 x hxV with hc | hc
      · exact hN x hc
      · exact hTab x hc
    have hxname : x.2 ∈ E.filterMap msgName := by
      rw [p7]
      exact List.mem_map_of_mem Prod.snd hxV
    obtain ⟨flds, hmsg⟩ := msg_of_filterMap hxname
    refine ⟨x.2, flds, ?_, ?_⟩
    · rw [← hx1]
      simpa using hxnode
    · rw [p5]
      exact List.mem_append_right _ hmsg
  · obtain ⟨nm, flds, hnode, hmsg⟩ := h id hold
    refine ⟨nm, flds, hnode, ?_⟩
    rw [p5]
    exact List.mem_append_left _ hmsg

/-- Appending message declarations preserves the ordering invariant. -/
theorem OrderedOk.append_msgs {decls E : List ProtoDecl}
    (h : OrderedOk decls) (hE : ∀ d ∈ E, isMessageDecl d = true) :
    OrderedOk (decls ++ E) := by
  intro j nm ops hj m hm r hr href
  by_cases hlt : j < decls.length
  · rw [List.getElem?_append] at hj
    rw [if_pos hlt] at hj
    obtain ⟨k, flds, hk, hkm⟩ := h j nm ops hj m hm r hr href
    refine ⟨k, flds, hk, ?_⟩
    rw [List.getElem?_append]
    rw [if_pos (lt_trans hk hlt)]
    exact hkm
  · exfalso
    rw [List.getElem?_append] at hj
    rw [if_neg hlt] at hj
    have hmem : ProtoDecl.service nm ops ∈ E :=
      List.mem_iff_getElem?.mpr ⟨j - decls.length, hj⟩
    have := hE _ hmem
    simp [isMessageDecl] at this

/-- Appending declarations preserves the visited-message invariant. -/
theorem VisitedMsgs.append_decls {nodeSet : List (Nat × String)}
    {s : EmitState} {X : List ProtoDecl} (h : VisitedMsgs nodeSet s) :
    VisitedMsgs nodeSet { s with decls := s.decls ++ X } := by
  intro id hid
  obtain ⟨nm, flds, hnode, hmsg⟩ := h id hid
  exact ⟨nm, flds, hnode, List.mem_append_left _ hmsg⟩

/-- Running `servicesGo` preserves the visited-message invariant and the
reference-before-service ordering of the declarations, under a
name-coherent node set covering the interfaces. -/
theorem servicesGo_ordered {p : CadlProgram} {fuel : Nat}
    {nodeSet : List (Nat × String)}
    (hTab : ∀ x ∈ tableNodes p, x ∈ nodeSet)
    (hcoh : ∀ x ∈ nodeSet, ∀ y ∈ nodeSet, x.1 = y.1 → x.2 = y.2) :
    ∀ {ifaces : List CadlInterface} {s s2 : EmitState},
      servicesGo p fuel ifaces s = some s2 →
      (∀ x ∈ ifacesNodePairs ifaces, x ∈ nodeSet) →
      VisitedMsgs nodeSet s → OrderedOk s.decls →
      VisitedMsgs nodeSet s2 ∧ OrderedOk s2.decls := by
  intro ifaces
  induction ifaces with
  | nil =>
    intro s s2 h hcov hvm hord
    simp only [servicesGo, Option.some.injEq] at h
    rw [← h]
    exact ⟨hvm, hord⟩
  | cons i0 rest ih =>
    intro s s2 h hcov hvm hord
    simp only [servicesGo] at h
    cases g1 : toMethodsGo p fuel i0.operations s with
    | none => rw [g1] at h; simp at h
    | some pair1 =>
      obtain ⟨ms, s1⟩ := pair1
      rw [g1] at h
      simp only at h
      obtain ⟨hms, hinv1⟩ := toMethodsGo_char g1
      have hcov0 : ∀ x ∈ opsNodePairs i0.operations, x ∈ nodeSet :=
        fun x hx => hcov x (by
          simp only [ifacesNodePairs, List.mem_append]
          exact Or.inl hx)
      have hcovrest : ∀ x ∈ ifacesNodePairs rest, x ∈ nodeSet :=
        fun x hx => hcov x (by
          simp only [ifacesNodePairs, List.mem_append]
          exact Or.inr hx)
      have hvm1 : VisitedMsgs nodeSet s1 :=
        VisitedMsgs.step hinv1 hcov0 hTab hvm
      obtain ⟨V, E, D, p1, p2, p3, p4, p5, p6, p7, p8⟩ := hinv1
      have hord1 : OrderedOk s1.decls := by
        rw [p5]
        exact hord.append_msgs p6
      have hord2 : OrderedOk
          (s1.decls ++ [ProtoDecl.service i0.name ms]) := by
        intro j nm ops hj m hm r hr href
        by_cases hlt : j < s1.decls.length
        · rw [List.getElem?_append, if_pos hlt] at hj
          obtain ⟨k, flds, hk, hkm⟩ := hord1 j nm ops hj m hm r hr href
          refine ⟨k, flds, hk, ?_⟩
          rw [List.getElem?_append, if_pos (lt_trans hk hlt)]
          exact hkm
        · rw [List.getElem?_append, if_neg hlt] at hj
          have hops : ops = ms ∧ nm = i0.name := by
            cases hd : j - s1.decls.length with
            | zero =>
              rw [hd] at hj
              simp only [List.getElem?_cons_zero, Option.some.injEq] at hj
              exact ⟨(ProtoDecl.service.injEq .. ▸ hj.symm).2,
                (ProtoDecl.service.injEq .. ▸ hj.symm).1⟩
            | succ k2 =>
              rw [hd] at hj
              simp at hj
          have hmms : m ∈ ms := hops.1 ▸ hm
          rw [hms] at hmms
          obtain ⟨op, hop, hmop⟩ := List.mem_map.mp hmms
          have hvisits := toMethodsGo_visits g1 op hop
          have hfind : ∃ id2, id2 ∈ s1.visited ∧
              (id2, r) ∈ nodeSet := by
            rcases href with hin | hret
            · rw [← hmop] at hin
              have hspec : inputSpec op.parameters = .ref r := hin
              obtain ⟨pr, id2, hpar, hid2, hrname⟩ :=
                inputSpec_ref_inv hspec hr
              refine ⟨id2, hvisits.1 pr id2 hpar hid2, ?_⟩
              have hself : (id2, typeNameD pr.type) ∈
                  nodePairsOfType pr.type := self_pair_mem hid2
              have h1 : (id2, typeNameD pr.type) ∈
                  nodePairsOfProps op.parameters := by
                rw [hpar]
                simp only [nodePairsOfProps, List.mem_append]
                exact Or.inl hself
              have h2 : (id2, typeNameD pr.type) ∈ opNodePairs op := by
                simp only [opNodePairs, List.mem_append]
                exact Or.inl h1
              rw [hrname]
              exact hcov0 _ (opNodePairs_sub_ops hop _ h2)
            · rw [← hmop] at hret
              have hspec : returnSpec op.returnType = .ref r := hret
              obtain ⟨id2, hid2, hrname⟩ := returnSpec_ref_inv hspec hr
              refine ⟨id2, hvisits.2 id2 hid2, ?_⟩
              have hself : (id2, typeNameD op.returnType) ∈
                  nodePairsOfType op.returnType := self_pair_mem hid2
              have h2 : (id2, typeNameD op.returnType) ∈ opNodePairs op := by
                simp only [opNodePairs, List.mem_append]
                exact Or.inr hself
              rw [hrname]
              exact hcov0 _ (opNodePairs_sub_ops hop _ h2)
          obtain ⟨id2, hid2vis, hid2node⟩ := hfind
          obtain ⟨nm2, flds2, hnm2node, hmsg2⟩ := hvm1 id2 hid2vis
          have hnmr : nm2 = r :=
            hcoh (id2, nm2) hnm2node (id2, r) hid2node rfl
          rw [hnmr] at hmsg2
          obtain ⟨k, hkm⟩ := List.mem_iff_getElem?.mp hmsg2
          have hklen : k < s1.decls.length :=
            (List.getElem?_eq_some.mp hkm).1
          refine ⟨k, flds2, ?_, ?_⟩
          · omega
          · rw [List.getElem?_append, if_pos hklen]
            exact hkm
      have hvm2 : VisitedMsgs nodeSet
          { s1 with decls := s1.decls ++ [ProtoDecl.service i0.name ms] } :=
        hvm1.append_decls
      exact ih h hcovrest hvm2 hord2

/-- The declarations of a lowered file satisfy the
reference-before-service ordering, under a name-coherent node set. -/
theorem declarationsFromNamespace_ordered {p : CadlProgram} {fuel : Nat}
    {ns : CadlNamespace} {diags : List Diag} {decls : List ProtoDecl}
    {diags2 : List Diag}
    (h : declarationsFromNamespace p fuel ns diags = some (decls, diags2))
    (hcoh : ∀ x ∈ nodeSetNs p ns, ∀ y ∈ nodeSetNs p ns,
      x.1 = y.1 → x.2 = y.2) :
    OrderedOk decls := by
  simp only [declarationsFromNamespace] at h
  cases g1 : servicesGo p fuel (recursiveAddInterfaces p ns)
      ⟨[], [], diags⟩ with
  | none => rw [g1] at h; simp at h
  | some s2 =>
    rw [g1] at h
    simp only [Option.some.injEq, Prod.mk.injEq] at h
    have hTab : ∀ x ∈ tableNodes p, x ∈ nodeSetNs p ns := by
      intro x hx
      simp only [nodeSetNs, List.mem_append]
      exact Or.inr hx
    have hres := servicesGo_ordered hTab hcoh g1
      (fun x hx => collected_pairs_mem_nodeSet hx)
      (by intro id hid; cases hid)
      (by intro j nm ops hj; simp at hj)
    rw [← h.1]
    exact hres.2

/-- A service interface is reachable from a namespace when it is one of the
namespace's own interfaces marked as a service, or lies in a nested
namespace that is not itself a package (a package boundary stops the
search). -/
inductive SvcReachable (p : CadlProgram) : CadlNamespace → CadlInterface →
    Prop where
  | here {ns : CadlNamespace} {i : CadlInterface} :
      i ∈ ns.interfaces → i.id ∈ p.serviceIds → SvcReachable p ns i
  | nested {ns c : CadlNamespace} {i : CadlInterface} :
      c ∈ ns.children → c.nsId ∉ packageIds p → SvcReachable p c i →
      SvcReachable p ns i

/-- The collector gathers exactly the service interfaces reachable without
crossing a package boundary (joint statement with the list traversal). -/
theorem collect_iff (p : CadlProgram) : ∀ n,
    (∀ ns, nsSize ns ≤ n → ∀ i,
      i ∈ recursiveAddInterfaces p ns ↔ SvcReachable p ns i) ∧
    (∀ l, nsListSize l ≤ n → ∀ i,
      (i ∈ recursiveAddInterfacesList p l ↔
        ∃ c ∈ l, c.nsId ∉ packageIds p ∧ SvcReachable p c i)) := by
  intro n
  induction n with
  | zero =>
    constructor
    · intro ns hns
      exact absurd hns (by cases ns; simp [nsSize])
    · intro l hl i
      cases l with
      | nil =>
        simp [recursiveAddInterfacesList]
      | cons c rest =>
        exact absurd hl (by
          cases c
          simp [nsListSize, nsSize])
  | succ n ih =>
    have hns : ∀ ns, nsSize ns ≤ n + 1 → ∀ i,
        i ∈ recursiveAddInterfaces p ns ↔ SvcReachable p ns i := by
      intro ns hsize i
      obtain ⟨nid, nname, ifaces, children⟩ := ns
      have hlsize : nsListSize children ≤ n := by
        simp only [nsSize] at hsize
        omega
      constructor
      · intro hi
        simp only [recursiveAddInterfaces] at hi
        rcases List.mem_append.mp hi with hi1 | hi2
        · have himem : i ∈ ifaces := List.mem_of_mem_filter hi1
          have hsvc : i.id ∈ p.serviceIds := by
            have := List.of_mem_filter hi1
            simpa using this
          exact SvcReachable.here himem hsvc
        · obtain ⟨c, hc, hcpkg, hcr⟩ :=
            ((ih.2 children hlsize i).mp hi2)
          exact SvcReachable.nested hc hcpkg hcr
      · intro hr
        simp only [recursiveAddInterfaces]
        cases hr with
        | here hmem hsvc =>
          apply List.mem_append_left
          apply List.mem_filter.mpr
          exact ⟨hmem, by simpa using hsvc⟩
        | nested hc hcpkg hcr =>
          apply List.mem_append_right
          exact (ih.2 children hlsize i).mpr ⟨_, hc, hcpkg, hcr⟩
    refine ⟨hns, ?_⟩
    intro l hl i
    cases l with
    | nil =>
      simp [recursiveAddInterfacesList]
    | cons c rest =>
      have hc1 : 1 ≤ nsSize c := by cases c; simp [nsSize]
      have hcsize : nsSize c ≤ n + 1 := by
        simp only [nsListSize] at hl
        omega
      have hrsize : nsListSize rest ≤ n := by
        simp only [nsListSize] at hl
        omega
      constructor
      · intro hi
        simp only [recursiveAddInterfacesList] at hi
        rcases List.mem_append.mp hi with hi1 | hi2
        · by_cases hpkg : c.nsId ∈ packageIds p
          · rw [if_pos hpkg] at hi1
            cases hi1
          · rw [if_neg hpkg] at hi1
            exact ⟨c, List.mem_cons_self c rest, hpkg,
              (hns c hcsize i).mp hi1⟩
        · obtain ⟨c2, hc2, hc2pkg, hc2r⟩ :=
            (ih.2 rest hrsize i).mp hi2
          exact ⟨c2, List.mem_cons_of_mem c hc2, hc2pkg, hc2r⟩
      · intro hex
        obtain ⟨c2, hc2, hc2pkg, hc2r⟩ := hex
        simp only [recursiveAddInterfacesList]
        rcases List.mem_cons.mp hc2 with heq | hrest
        · subst heq
          apply List.mem_append_left
          rw [if_neg hc2pkg]
          exact (hns c2 hcsize i).mpr hc2r
        · apply List.mem_append_right
          exact (ih.2 rest hrsize i).mpr ⟨c2, hrest, hc2pkg, hc2r⟩

/-- A name outside the nine-entry scalar table translates to nothing. -/
theorem scalarTable_none {name : String}
    (h : name ∉ ["bytes", "boolean", "int32", "int64", "uint32", "uint64",
      "string", "float32", "float64"]) : scalarTable name = none := by
  unfold scalarTable
  split <;> simp_all

/-- Equation: `addType` on a non-model kind reports `unconvertible` and
substitutes the placeholder. -/
theorem addType_other_eq (p : CadlProgram) (fuel : Nat) (kd : String)
    (s : EmitState) :
    addType p fuel (.other kd) s =
      some (.ref "<unreachable>",
        addDiag s "unsupported-field-type" (some "unconvertible")) := by
  simp [addType]

/-- Equation: `addType` on an intrinsic scalar in the table yields the
table's scalar and leaves the state unchanged. -/
theorem addType_scalar_eq (p : CadlProgram) (fuel : Nat) (i : Nat)
    {name sc : String} (h : scalarTable name = some sc) (s : EmitState) :
    addType p fuel (.intrinsic i name) s = some (.scalar sc, s) := by
  simp [addType, h]

/-- Equation: `addType` on an unrecognized intrinsic reports
`unknown-intrinsic` and substitutes the placeholder. -/
theorem addType_unknown_eq (p : CadlProgram) (fuel : Nat) (i : Nat)
    {name : String} (h : scalarTable name = none) (s : EmitState) :
    addType p fuel (.intrinsic i name) s =
      some (.ref "<unreachable>",
        addDiag s "unsupported-field-type" (some "unknown-intrinsic")) := by
  simp [addType, h]

/-- Equation: `addType` on a map instance with no template arguments
substitutes the placeholder silently, with no diagnostic. -/
theorem addType_map_noargs_eq (p : CadlProgram) (fuel : Nat) (i : Nat)
    (s : EmitState) :
    addType p fuel (.intrinsicMap i []) s =
      some (.ref "<unreachable>", s) := by
  simp [addType]

/-- Equation: `addType` on a map instance with a single template argument
substitutes the placeholder silently, with no diagnostic. -/
theorem addType_map_onearg_eq (p : CadlProgram) (fuel : Nat) (i : Nat)
    (k : CadlType) (s : EmitState) :
    addType p fuel (.intrinsicMap i [k]) s =
      some (.ref "<unreachable>", s) := by
  simp [addType]

/-- Equation: `addModelAsInput` on a single parameter of non-model kind
reports `wrong-type` and substitutes the placeholder. -/
theorem addModelAsInput_wrong_type (p : CadlProgram) (fuel : Nat)
    {pr : Property} {kd : String} (h : pr.type = .other kd)
    (s : EmitState) :
    addModelAsInput p fuel [pr] s =
      some (.ref "<unreachable>",
        addDiag s "unsupported-input-type" (some "wrong-type")) := by
  obtain ⟨pid, pname, ptype⟩ := pr
  simp only at h
  subst h
  rfl

/-- Equation: `addReturnType` on a non-model kind reports
`unsupported-return-type` and substitutes the placeholder. -/
theorem addReturnType_other_eq (p : CadlProgram) (fuel : Nat) (kd : String)
    (s : EmitState) :
    addReturnType p fuel (.other kd) s =
      some (.ref "<unreachable>", addDiag s "unsupported-return-type"
        none) := rfl

/-- A parameter bag without exactly one property lowers to the placeholder
reference. -/
theorem inputSpec_wrong_number {params : List Property}
    (h : params.length ≠ 1) : inputSpec params = .ref "<unreachable>" := by
  match params with
  | [] => rfl
  | [pr] => exact absurd rfl h
  | pr1 :: pr2 :: rest => rfl

/-- Characterization of the map translation: the produced wire type stores
exactly the second tuple element of the lowered key and the lowered value,
with no validation of either. -/
theorem addType_map_char {p : CadlProgram} {fuel : Nat} {i : Nat}
    {k v : CadlType} {rest : List CadlType} {s : EmitState} {r : ProtoType}
    {s2 : EmitState}
    (h : addType p fuel (.intrinsicMap i (k :: v :: rest)) s =
      some (r, s2)) :
    ∃ kp s1 vp, addType p fuel k s = some (kp, s1) ∧
      addType p fuel v s1 = some (vp, s2) ∧
      r = .map (protoElem1 kp) vp := by
  simp only [addType] at h
  cases h1 : addType p fuel k s with
  | none => rw [h1] at h; simp at h
  | some pair1 =>
    obtain ⟨kp, s1⟩ := pair1
    rw [h1] at h
    simp only at h
    cases h2 : addType p fuel v s1 with
    | none => rw [h2] at h; simp at h
    | some pair2 =>
      obtain ⟨vp, s3⟩ := pair2
      rw [h2] at h
      simp only [Option.some.injEq, Prod.mk.injEq] at h
      refine ⟨kp, s1, vp, rfl, ?_, h.1.symm⟩
      rw [← h.2]
      exact h2

/-! ## Concrete programs used by the claim instances -/

/-- A program with no packages, no models, no services. -/
def emptyProgram : CadlProgram := ⟨[], [], [], []⟩

/-- The empty emitter state. -/
def emptyState : EmitState := ⟨[], [], []⟩

/-- A program whose single package contains one service with one operation
whose input and return type is the self-referential model `A`
(`model A { a: A }`). -/
def cyclicExample : CadlProgram :=
  { packages := [(.mk 0 "P" [⟨10, "Svc",
      [⟨"op", [⟨100, "x", .modelRef 1 "A"⟩], .modelRef 1 "A"⟩]⟩] [], "pkg")],
    serviceIds := [10],
    models := [(1, [⟨101, "a", .modelRef 1 "A"⟩])],
    fieldIndex := [(101, 1)] }

/-- A program with services and a model but no package declarations. -/
def noPackageExample : CadlProgram :=
  ⟨[], [10], [(1, [⟨101, "a", .intrinsic 3 "int32"⟩])], [(101, 1)]⟩

/-- A `Cadl.Map` instance node with a floating-point key and a nested map
value (`Map<float64, Map<string, string>>`). -/
def badMapExample : CadlType :=
  .intrinsicMap 10 [.intrinsic 11 "float64",
    .intrinsicMap 12 [.intrinsic 13 "string", .intrinsic 14 "string"]]

/-- The namespace of the shared-model example: one service with two
operations whose inputs are both the model `A`, and whose returns are the
models `B` and `A`. -/
def sharedNs : CadlNamespace :=
  .mk 0 "Pkg" [⟨10, "Svc",
    [⟨"opA", [⟨100, "x", .modelRef 1 "A"⟩], .modelRef 2 "B"⟩,
     ⟨"opB", [⟨101, "y", .modelRef 1 "A"⟩], .modelRef 1 "A"⟩]⟩] []

/-- The shared-model example program. -/
def sharedExample : CadlProgram :=
  { packages := [(sharedNs, "pkg")],
    serviceIds := [10],
    models := [(1, [⟨110, "a", .intrinsic 3 "int32"⟩]),
               (2, [⟨111, "b", .modelRef 1 "A"⟩])],
    fieldIndex := [(110, 1), (111, 2)] }

/-- The declarations of the shared-model example's file. -/
def sharedDecls : List ProtoDecl :=
  [.message "A" [⟨"a", .scalar "int32", some 1⟩],
   .message "B" [⟨"b", .ref "A", some 2⟩],
   .service "Svc"
     [⟨"opA", .ref "A", .ref "B"⟩, ⟨"opB", .ref "A", .ref "A"⟩]]

/-! ## Claims -/

/-- C1: for every source graph (in particular every graph whose models form
reference cycles, such as `cyclicExample` below, whose model `A` contains a
field of type `A`), the lowering pass terminates with a result once the
fuel exceeds the number of distinct model-kinded node identities:
`visitType` marks a model visited before translating its fields, so each
model is translated at most once and the recursion reaches a fixed point
instead of recursing forever.  The second conjunct runs the pass on the
self-referential model with that fuel and obtains the finite output. -/
theorem C1_termination_on_cycles :
    (∀ p : CadlProgram,
      (cadlToProto p ((programIds p).length + 1)).isSome = true) ∧
    cadlToProto cyclicExample 2 =
      some ([⟨some "pkg",
        [.message "A" [⟨"a", .ref "A", some 1⟩],
         .service "Svc" [⟨"op", .ref "A", .ref "A"⟩]]⟩], []) := by
  constructor
  · intro p
    exact Option.ne_none_iff_isSome.mp
      (cadlToProto_total p (Nat.lt_succ_self _))
  · simp [cadlToProto, cadlToProtoGo, declarationsFromNamespace, servicesGo,
      toMethodsGo, toMethodFromOperation, addModelAsInput, addReturnType,
      visitType, toMessage, toFields, addType, recursiveAddInterfaces,
      recursiveAddInterfacesList, packageIds, cyclicExample, typeId,
      typeNameD, propsOfType, modelProps, assocFind, lookupIndex,
      scalarTable, addDiag]

/-- C3 counterexample: `noPackageExample` declares a service interface and
a reachable model but no package; the pass yields the empty file list, not
exactly one file. -/
theorem C3_counterexample :
    noPackageExample.packages = [] ∧
    noPackageExample.serviceIds = [10] ∧
    cadlToProto noPackageExample 1 = some ([], []) := by
  refine ⟨rfl, rfl, ?_⟩
  simp [cadlToProto, cadlToProtoGo, noPackageExample]

/-- C3 (amended): for every source graph containing no package
declarations the lowering pass yields no output files at all (one file is
produced per entry of the package map); the default stem `main` applies in
the writer only to a file built without a package name, which
`cadlToProto` never constructs. -/
theorem C3_no_packages (p : CadlProgram) (fuel : Nat)
    (h : p.packages = []) :
    cadlToProto p fuel = some ([], []) ∧ packageSlug none = ["main"] := by
  constructor
  · simp [cadlToProto, h, cadlToProtoGo]
  · rfl

/-- C3 witness: the amended claim applied to the concrete package-less
program. -/
theorem C3_witness :
    cadlToProto noPackageExample 3 = some ([], []) ∧
    packageSlug none = ["main"] :=
  C3_no_packages noPackageExample 3 rfl

/-- C4 counterexample: translating `Map<float64, Map<string, string>>`
produces a map wire type whose key is the non-integral scalar `double` and
whose value is itself a map, with no diagnostic: the `map` constructor
performs no runtime check. -/
theorem C4_counterexample :
    addType emptyProgram 1 badMapExample emptyState =
      some (.map "double" (.map "string" (.scalar "string")),
        emptyState) ∧
    isIntegralScalarName "double" = false ∧
    "double" ≠ "string" ∧
    isMapType (.map "string" (.scalar "string")) = true := by
  refine ⟨?_, by decide, by decide, rfl⟩
  simp [addType, badMapExample, emptyProgram, emptyState, scalarTable,
    protoElem1]

/-- C4 (amended): the map constructor performs no runtime validation: the
map wire type built for a `Map` instance stores exactly the second tuple
element of the lowered key and the lowered value as they are, so a key
outside the string/integral scalars or a value that is itself a map is
passed through unchecked (the restrictions are static-type obligations on
the callers only). -/
theorem C4_map_unchecked {p : CadlProgram} {fuel : Nat} {i : Nat}
    {k v : CadlType} {rest : List CadlType} {s : EmitState} {r : ProtoType}
    {s2 : EmitState}
    (h : addType p fuel (.intrinsicMap i (k :: v :: rest)) s =
      some (r, s2)) :
    ∃ kp s1 vp, addType p fuel k s = some (kp, s1) ∧
      addType p fuel v s1 = some (vp, s2) ∧
      r = .map (protoElem1 kp) vp :=
  addType_map_char h

/-- C4 witness: the amended characterization applied to the concrete
ill-kinded map, exhibiting the unchecked key and value. -/
theorem C4_witness :
    ∃ kp s1 vp,
      addType emptyProgram 1 (.intrinsic 11 "float64") emptyState =
        some (kp, s1) ∧
      addType emptyProgram 1
        (.intrinsicMap 12 [.intrinsic 13 "string", .intrinsic 14 "string"])
        s1 = some (vp, emptyState) ∧
      ProtoType.map "double" (.map "string" (.scalar "string")) =
        .map (protoElem1 kp) vp :=
  @C4_map_unchecked emptyProgram 1 10 (.intrinsic 11 "float64")
    (.intrinsicMap 12 [.intrinsic 13 "string", .intrinsic 14 "string"])
    [] emptyState
    (.map "double" (.map "string" (.scalar "string"))) emptyState
    (by simp [addType, emptyProgram, emptyState, scalarTable, protoElem1])

/-- C5 counterexample: a `Cadl.Map` instance with missing template
arguments makes the mapper substitute the sentinel `<unreachable>`
silently: the diagnostics list stays empty, falsifying the claim that
every placeholder substitution is accompanied by exactly one diagnostic
event. -/
theorem C5_counterexample :
    addType emptyProgram 1 (.intrinsicMap 5 []) emptyState =
      some (.ref "<unreachable>", emptyState) ∧
    emptyState.diags = [] := by
  constructor
  · simp [addType, emptyProgram, emptyState]
  · rfl

/-- C5 (amended): every substitution of the `<unreachable>` placeholder by
the mapper is accompanied by exactly one structured diagnostic event,
except the map instance with missing template arguments, which is
substituted silently ("a core compile error" handled elsewhere); the pass
itself never throws or aborts on a bad declaration: given sufficient fuel
it always returns a result. -/
theorem C5_placeholder_diagnostics :
    (∀ (p : CadlProgram) (fuel : Nat) (kd : String) (s : EmitState),
      addType p fuel (.other kd) s =
        some (.ref "<unreachable>",
          addDiag s "unsupported-field-type" (some "unconvertible"))) ∧
    (∀ (p : CadlProgram) (fuel i : Nat) (name : String) (s : EmitState),
      scalarTable name = none →
      addType p fuel (.intrinsic i name) s =
        some (.ref "<unreachable>",
          addDiag s "unsupported-field-type" (some "unknown-intrinsic"))) ∧
    (∀ (p : CadlProgram) (fuel : Nat) (params : List Property)
        (s : EmitState), params.length ≠ 1 →
      addModelAsInput p fuel params s =
        some (.ref "<unreachable>",
          addDiag s "unsupported-input-type" (some "wrong-number"))) ∧
    (∀ (p : CadlProgram) (fuel : Nat) (pr : Property) (kd : String)
        (s : EmitState), pr.type = .other kd →
      addModelAsInput p fuel [pr] s =
        some (.ref "<unreachable>",
          addDiag s "unsupported-input-type" (some "wrong-type"))) ∧
    (∀ (p : CadlProgram) (fuel : Nat) (kd : String) (s : EmitState),
      addReturnType p fuel (.other kd) s =
        some (.ref "<unreachable>",
          addDiag s "unsupported-return-type" none)) ∧
    (∀ (p : CadlProgram) (fuel i : Nat) (s : EmitState),
      addType p fuel (.intrinsicMap i []) s =
        some (.ref "<unreachable>", s)) ∧
    (∀ (p : CadlProgram) (fuel i : Nat) (k : CadlType) (s : EmitState),
      addType p fuel (.intrinsicMap i [k]) s =
        some (.ref "<unreachable>", s)) ∧
    (∀ p : CadlProgram,
      (cadlToProto p ((programIds p).length + 1)).isSome = true) := by
  refine ⟨addType_other_eq, ?_, ?_, ?_, addReturnType_other_eq,
    addType_map_noargs_eq, addType_map_onearg_eq, ?_⟩
  · intro p fuel i name s h
    exact addType_unknown_eq p fuel i h s
  · intro p fuel params s h
    exact addModelAsInput_wrong_number s h
  · intro p fuel pr kd s h
    exact addModelAsInput_wrong_type p fuel h s
  · intro p
    exact Option.ne_none_iff_isSome.mp
      (cadlToProto_total p (Nat.lt_succ_self _))

/-- C5 witness: the amended claim instantiated at concrete inputs: the
`unconvertible` and `wrong-number` cases emit their single diagnostic. -/
theorem C5_witness :
    addType emptyProgram 1 (.other "Union") emptyState =
      some (.ref "<unreachable>",
        addDiag emptyState "unsupported-field-type"
          (some "unconvertible")) ∧
    addModelAsInput emptyProgram 1 [] emptyState =
      some (.ref "<unreachable>",
        addDiag emptyState "unsupported-input-type"
          (some "wrong-number")) := by
  constructor
  · exact C5_placeholder_diagnostics.1 emptyProgram 1 "Union" emptyState
  · exact C5_placeholder_diagnostics.2.2.1 emptyProgram 1 [] emptyState
      (by decide)

/-- C6: an operation whose parameter bag does not have exactly one
property makes `addModelAsInput` record the
`unsupported-input-type`/`wrong-number` diagnostic and return the
`<unreachable>` placeholder instead of a valid input reference; the method
is still produced with the placeholder input and every sibling operation
is still translated (the produced method list projects all operations). -/
theorem C6_wrong_number_diagnostic :
    (∀ (p : CadlProgram) (fuel : Nat) (params : List Property)
        (s : EmitState), params.length ≠ 1 →
      addModelAsInput p fuel params s =
        some (.ref "<unreachable>",
          addDiag s "unsupported-input-type" (some "wrong-number"))) ∧
    (∀ (p : CadlProgram) (fuel : Nat) (op : CadlOperation)
        (rest : List CadlOperation) (s : EmitState)
        (ms : List ProtoMethod) (s2 : EmitState),
      op.parameters.length ≠ 1 →
      toMethodsGo p fuel (op :: rest) s = some (ms, s2) →
      ms = (op :: rest).map methodSpec ∧
      (methodSpec op).input = .ref "<unreachable>" ∧
      ms.length = rest.length + 1) := by
  constructor
  · intro p fuel params s h
    exact addModelAsInput_wrong_number s h
  · intro p fuel op rest s ms s2 hlen h
    obtain ⟨hms, -⟩ := toMethodsGo_char h
    refine ⟨hms, ?_, by rw [hms]; simp⟩
    show inputSpec op.parameters = .ref "<unreachable>"
    exact inputSpec_wrong_number hlen

/-- C6 witness: a two-parameter operation processed ahead of a sibling:
the diagnostic is recorded, the input is the placeholder, and the sibling
is still translated. -/
theorem C6_witness :
    addModelAsInput emptyProgram 1
      [⟨1, "x", .intrinsic 5 "int32"⟩, ⟨2, "y", .intrinsic 6 "string"⟩]
      emptyState =
      some (.ref "<unreachable>",
        addDiag emptyState "unsupported-input-type"
          (some "wrong-number")) ∧
    (methodSpec ⟨"bad",
      [⟨1, "x", .intrinsic 5 "int32"⟩, ⟨2, "y", .intrinsic 6 "string"⟩],
      .other "Union"⟩).input = .ref "<unreachable>" := by
  constructor
  · exact C6_wrong_number_diagnostic.1 emptyProgram 1 _ emptyState
      (by decide)
  · have h := C6_wrong_number_diagnostic.2 emptyProgram 1
      ⟨"bad",
        [⟨1, "x", .intrinsic 5 "int32"⟩, ⟨2, "y", .intrinsic 6 "string"⟩],
        .other "Union"⟩
      [] emptyState
      [⟨"bad", .ref "<unreachable>", .ref "<unreachable>"⟩]
      (addDiag (addDiag emptyState "unsupported-input-type"
        (some "wrong-number")) "unsupported-return-type" none)
      (by decide)
      (by simp [toMethodsGo, toMethodFromOperation, addModelAsInput,
        addReturnType, emptyProgram, emptyState, methodSpec, inputSpec,
        returnSpec, addDiag])
    exact h.2.1

/-- C7: the field decorator records no index and reports `invalid` for a
non-integer or non-positive index, records no index and reports
`out-of-bounds` above the Protobuf maximum, reports `reserved` for the
implementation-reserved range while still recording the index, and
otherwise records the index silently; a recorded index reappears verbatim
as the emitted field declaration's index. -/
theorem C7_field_index_checks (i : Rat) :
    (¬(i.den = 1) ∨ i ≤ 0 →
      fieldDecorator i = ([⟨"field-index", some "invalid"⟩], none)) ∧
    (i.den = 1 → 0 < i → (MAX_FIELD_INDEX : Rat) < i →
      fieldDecorator i = ([⟨"field-index", some "out-of-bounds"⟩],
        none)) ∧
    (i.den = 1 → 19000 ≤ i → i ≤ 19999 →
      fieldDecorator i = ([⟨"field-index", some "reserved"⟩],
        some i.num.toNat)) ∧
    (i.den = 1 → 0 < i → ¬((MAX_FIELD_INDEX : Rat) < i) →
      ¬(19000 ≤ i ∧ i ≤ 19999) →
      fieldDecorator i = ([], some i.num.toNat)) ∧
    (∀ (p : CadlProgram) (fuel : Nat) (pr : Property) (s : EmitState)
        (v : Nat) (fs : List ProtoField) (s2 : EmitState),
      assocFind p.fieldIndex pr.id = some v →
      toFields p fuel [pr] s = some (fs, s2) →
      ∃ ty, fs = [⟨pr.name, ty, some v⟩]) := by
  refine ⟨?_, ?_, ?_, ?_, ?_⟩
  · intro h
    rw [fieldDecorator, if_pos h]
  · intro hden hpos hmax
    have hA : ¬(¬(i.den = 1) ∨ i ≤ 0) := by
      push_neg
      exact ⟨hden, hpos⟩
    rw [fieldDecorator, if_neg hA, if_pos hmax]
  · intro hden h19000 h19999
    have hpos : 0 < i := lt_of_lt_of_le (by norm_num) h19000
    have hA : ¬(¬(i.den = 1) ∨ i ≤ 0) := by
      push_neg
      exact ⟨hden, hpos⟩
    have hle : i ≤ (MAX_FIELD_INDEX : Rat) := by
      refine le_trans h19999 ?_
      norm_num [MAX_FIELD_INDEX]
    have hB : ¬((MAX_FIELD_INDEX : Rat) < i) := not_lt.mpr hle
    rw [fieldDecorator, if_neg hA, if_neg hB, if_pos ⟨h19000, h19999⟩]
  · intro hden hpos hB hC
    have hA : ¬(¬(i.den = 1) ∨ i ≤ 0) := by
      push_neg
      exact ⟨hden, hpos⟩
    rw [fieldDecorator, if_neg hA, if_neg hB, if_neg hC]
  · intro p fuel pr s v fs s2 hfind h
    simp only [toFields] at h
    cases h1 : addType p fuel pr.type s with
    | none => rw [h1] at h; simp at h
    | some pair1 =>
      obtain ⟨ty, s1⟩ := pair1
      rw [h1] at h
      simp only [Option.some.injEq, Prod.mk.injEq] at h
      refine ⟨ty, ?_⟩
      rw [← h.1]
      simp [lookupIndex, hfind]

/-- C7 witness: index 19500 is reported as reserved yet still recorded,
and the field is emitted with index 19500. -/
theorem C7_witness :
    fieldDecorator 19500 =
      ([⟨"field-index", some "reserved"⟩], some 19500) ∧
    (∃ ty, [(⟨"f", ProtoType.scalar "int32", some 19500⟩ : ProtoField)] =
      [⟨"f", ty, some 19500⟩]) := by
  constructor
  · have h := (C7_field_index_checks 19500).2.2.1 (by decide)
      (by norm_num) (by norm_num)
    simpa using h
  · exact (C7_field_index_checks 19500).2.2.2.2
      ⟨[], [], [], [(110, 19500)]⟩ 1 ⟨110, "f", .intrinsic 5 "int32"⟩
      emptyState 19500 _ emptyState rfl
      (by simp [toFields, addType, scalarTable, lookupIndex, assocFind,
        emptyState])

/-- C8: the recognized intrinsic scalars translate exactly through the
fixed nine-entry table, and every other intrinsic name (the map construct
is a separate, structurally distinguished case) raises
`unsupported-field-type`/`unknown-intrinsic` and yields the
`<unreachable>` placeholder. -/
theorem C8_intrinsic_table :
    (∀ (p : CadlProgram) (fuel i : Nat) (s : EmitState),
      addType p fuel (.intrinsic i "bytes") s =
        some (.scalar "bytes", s) ∧
      addType p fuel (.intrinsic i "boolean") s =
        some (.scalar "bool", s) ∧
      addType p fuel (.intrinsic i "int32") s =
        some (.scalar "int32", s) ∧
      addType p fuel (.intrinsic i "int64") s =
        some (.scalar "int64", s) ∧
      addType p fuel (.intrinsic i "uint32") s =
        some (.scalar "uint32", s) ∧
      addType p fuel (.intrinsic i "uint64") s =
        some (.scalar "uint64", s) ∧
      addType p fuel (.intrinsic i "string") s =
        some (.scalar "string", s) ∧
      addType p fuel (.intrinsic i "float32") s =
        some (.scalar "float", s) ∧
      addType p fuel (.intrinsic i "float64") s =
        some (.scalar "double", s)) ∧
    (∀ (p : CadlProgram) (fuel i : Nat) (name : String) (s : EmitState),
      name ∉ ["bytes", "boolean", "int32", "int64", "uint32", "uint64",
        "string", "float32", "float64"] →
      addType p fuel (.intrinsic i name) s =
        some (.ref "<unreachable>",
          addDiag s "unsupported-field-type"
            (some "unknown-intrinsic"))) := by
  constructor
  · intro p fuel i s
    exact ⟨@addType_scalar_eq p fuel i "bytes" "bytes" rfl s,
      @addType_scalar_eq p fuel i "boolean" "bool" rfl s,
      @addType_scalar_eq p fuel i "int32" "int32" rfl s,
      @addType_scalar_eq p fuel i "int64" "int64" rfl s,
      @addType_scalar_eq p fuel i "uint32" "uint32" rfl s,
      @addType_scalar_eq p fuel i "uint64" "uint64" rfl s,
      @addType_scalar_eq p fuel i "string" "string" rfl s,
      @addType_scalar_eq p fuel i "float32" "float" rfl s,
      @addType_scalar_eq p fuel i "float64" "double" rfl s⟩
  · intro p fuel i name s h
    exact addType_unknown_eq p fuel i (scalarTable_none h) s

/-- C8 witness: the table applied to `float64` and the unknown intrinsic
`int8`. -/
theorem C8_witness :
    addType emptyProgram 1 (.intrinsic 5 "float64") emptyState =
      some (.scalar "double", emptyState) ∧
    addType emptyProgram 1 (.intrinsic 5 "int8") emptyState =
      some (.ref "<unreachable>",
        addDiag emptyState "unsupported-field-type"
          (some "unknown-intrinsic")) := by
  constructor
  · exact (C8_intrinsic_table.1 emptyProgram 1 5
      emptyState).2.2.2.2.2.2.2.2
  · exact C8_intrinsic_table.2 emptyProgram 1 5 "int8" emptyState
      (by decide)

/-- Every collected interface appears, fully projected, among the lowered
file's declarations. -/
theorem declarationsFromNamespace_services {p : CadlProgram} {fuel : Nat}
    {ns : CadlNamespace} {diags : List Diag} {decls : List ProtoDecl}
    {diags2 : List Diag}
    (h : declarationsFromNamespace p fuel ns diags = some (decls, diags2)) :
    ∀ i ∈ recursiveAddInterfaces p ns,
      ProtoDecl.service i.name (i.operations.map methodSpec) ∈ decls := by
  simp only [declarationsFromNamespace] at h
  cases g1 : servicesGo p fuel (recursiveAddInterfaces p ns)
      ⟨[], [], diags⟩ with
  | none => rw [g1] at h; simp at h
  | some s2 =>
    rw [g1] at h
    simp only [Option.some.injEq, Prod.mk.injEq] at h
    intro i hi
    rw [← h.1]
    exact (servicesGo_char g1).2.1 i hi

/-- C2: in a lowered file whose model-kinded node pairs are name-coherent
and name-injective, a model `M` reachable as input or return type from two
different collected operations (each reference being either the
operation's single input parameter or its return type) yields exactly one
message declaration named `M`'s name in the file, both interfaces appear
as service declarations projecting all their operations, and both
operations' method declarations reference `M` by that same name. -/
theorem C2_shared_model_single_message {p : CadlProgram} {fuel : Nat}
    {ns : CadlNamespace} {diags : List Diag} {decls : List ProtoDecl}
    {diags2 : List Diag}
    (h : declarationsFromNamespace p fuel ns diags = some (decls, diags2))
    (hcoh : ∀ x ∈ nodeSetNs p ns, ∀ y ∈ nodeSetNs p ns,
      x.1 = y.1 → x.2 = y.2)
    (hinj : ∀ x ∈ nodeSetNs p ns, ∀ y ∈ nodeSetNs p ns,
      x.2 = y.2 → x.1 = y.1)
    {iA : CadlInterface} {opA : CadlOperation}
    (hiA : iA ∈ recursiveAddInterfaces p ns) (hopA : opA ∈ iA.operations)
    {iB : CadlInterface} {opB : CadlOperation}
    (hiB : iB ∈ recursiveAddInterfaces p ns) (hopB : opB ∈ iB.operations)
    (_hne : opA ≠ opB) {mid : Nat} {nmA nmB : String}
    (hA : opRefsModel opA mid nmA) (hB : opRefsModel opB mid nmB) :
    countMsgsNamed nmA decls = 1 ∧
    ProtoDecl.service iA.name (iA.operations.map methodSpec) ∈ decls ∧
    ProtoDecl.service iB.name (iB.operations.map methodSpec) ∈ decls ∧
    ((∃ prA, opA.parameters = [prA] ∧
        (methodSpec opA).input = .ref nmA) ∨
      (methodSpec opA).returns = .ref nmA) ∧
    ((∃ prB, opB.parameters = [prB] ∧
        (methodSpec opB).input = .ref nmA) ∨
      (methodSpec opB).returns = .ref nmA) := by
  obtain ⟨hcount, hsvcA⟩ :=
    declarationsFromNamespace_unique h hcoh hinj hiA hopA hA
  have hsvcB := declarationsFromNamespace_services h iB hiB
  have hAnode : (mid, nmA) ∈ nodeSetNs p ns :=
    ref_pair_mem_nodeSet hiA hopA hA
  have hBnode : (mid, nmB) ∈ nodeSetNs p ns :=
    ref_pair_mem_nodeSet hiB hopB hB
  have hBA : nmB = nmA := hcoh (mid, nmB) hBnode (mid, nmA) hAnode rfl
  refine ⟨hcount, hsvcA, hsvcB, ?_, ?_⟩
  · rcases hA with ⟨prA, hpar, hid, hnm⟩ | ⟨hid, hnm⟩
    · refine Or.inl ⟨prA, hpar, ?_⟩
      show inputSpec opA.parameters = .ref nmA
      rw [inputSpec_model hpar hid, hnm]
    · refine Or.inr ?_
      show returnSpec opA.returnType = .ref nmA
      rw [returnSpec_model hid, hnm]
  · rcases hB with ⟨prB, hpar, hid, hnm⟩ | ⟨hid, hnm⟩
    · refine Or.inl ⟨prB, hpar, ?_⟩
      show inputSpec opB.parameters = .ref nmA
      rw [inputSpec_model hpar hid, hnm, hBA]
    · refine Or.inr ?_
      show returnSpec opB.returnType = .ref nmA
      rw [returnSpec_model hid, hnm, hBA]

/-- Namespace of the return-shared example: one service with two
operations that share the model `M` only through their return types. -/
def returnNs : CadlNamespace :=
  .mk 0 "Pkg" [⟨10, "Svc",
    [⟨"op1", [⟨200, "x", .modelRef 4 "In1"⟩], .modelRef 6 "M"⟩,
     ⟨"op2", [⟨201, "y", .modelRef 5 "In2"⟩], .modelRef 6 "M"⟩]⟩] []

/-- The return-shared example program. -/
def returnExample : CadlProgram :=
  { packages := [(returnNs, "pkg")],
    serviceIds := [10],
    models := [(4, [⟨210, "a", .intrinsic 7 "int32"⟩]),
               (5, [⟨211, "b", .intrinsic 8 "string"⟩]),
               (6, [⟨212, "m", .intrinsic 9 "boolean"⟩])],
    fieldIndex := [(210, 1), (211, 1), (212, 1)] }

/-- The declarations of the return-shared example's file. -/
def returnDecls : List ProtoDecl :=
  [.message "In1" [⟨"a", .scalar "int32", some 1⟩],
   .message "M" [⟨"m", .scalar "bool", some 1⟩],
   .message "In2" [⟨"b", .scalar "string", some 1⟩],
   .service "Svc"
     [⟨"op1", .ref "In1", .ref "M"⟩, ⟨"op2", .ref "In2", .ref "M"⟩]]

/-- C2 witness: the model `M` of the return-shared example is reached only
as the return type of the two distinct operations; the lowered file
declares exactly one message named `M` and one service whose two methods
both return the reference `M`. -/
theorem C2_witness :
    countMsgsNamed "M" returnDecls = 1 ∧
    ProtoDecl.service "Svc"
      [⟨"op1", .ref "In1", .ref "M"⟩, ⟨"op2", .ref "In2", .ref "M"⟩] ∈
      returnDecls := by
  have h0 : declarationsFromNamespace returnExample 7 returnNs [] =
      some (returnDecls, []) := by
    simp [declarationsFromNamespace, servicesGo, toMethodsGo,
      toMethodFromOperation, addModelAsInput, addReturnType, visitType,
      toMessage, toFields, addType, recursiveAddInterfaces,
      recursiveAddInterfacesList, packageIds, returnExample, returnNs,
      returnDecls, typeId, typeNameD, propsOfType, modelProps, assocFind,
      lookupIndex, scalarTable, addDiag]
  have hcoh : ∀ x ∈ nodeSetNs returnExample returnNs,
      ∀ y ∈ nodeSetNs returnExample returnNs, x.1 = y.1 → x.2 = y.2 := by
    simp only [nodeSetNs, nsNodePairs, nsListNodePairs, ifacesNodePairs,
      opsNodePairs, opNodePairs, nodePairsOfProps, nodePairsOfType,
      nodePairsOfTypeList, tableNodes, tableNodesGo, returnExample,
      returnNs]
    decide
  have hinj : ∀ x ∈ nodeSetNs returnExample returnNs,
      ∀ y ∈ nodeSetNs returnExample returnNs, x.2 = y.2 → x.1 = y.1 := by
    simp only [nodeSetNs, nsNodePairs, nsListNodePairs, ifacesNodePairs,
      opsNodePairs, opNodePairs, nodePairsOfProps, nodePairsOfType,
      nodePairsOfTypeList, tableNodes, tableNodesGo, returnExample,
      returnNs]
    decide
  have hiA : (⟨10, "Svc",
      [⟨"op1", [⟨200, "x", .modelRef 4 "In1"⟩], .modelRef 6 "M"⟩,
       ⟨"op2", [⟨201, "y", .modelRef 5 "In2"⟩], .modelRef 6 "M"⟩]⟩ :
      CadlInterface) ∈ recursiveAddInterfaces returnExample returnNs := by
    simp [recursiveAddInterfaces, recursiveAddInterfacesList,
      returnExample, returnNs, packageIds]
  have hopA : (⟨"op1", [⟨200, "x", .modelRef 4 "In1"⟩], .modelRef 6 "M"⟩ :
      CadlOperation) ∈
      (⟨10, "Svc",
        [⟨"op1", [⟨200, "x", .modelRef 4 "In1"⟩], .modelRef 6 "M"⟩,
         ⟨"op2", [⟨201, "y", .modelRef 5 "In2"⟩], .modelRef 6 "M"⟩]⟩ :
        CadlInterface).operations := by
    simp [CadlInterface.operations]
  have hopB : (⟨"op2", [⟨201, "y", .modelRef 5 "In2"⟩], .modelRef 6 "M"⟩ :
      CadlOperation) ∈
      (⟨10, "Svc",
        [⟨"op1", [⟨200, "x", .modelRef 4 "In1"⟩], .modelRef 6 "M"⟩,
         ⟨"op2", [⟨201, "y", .modelRef 5 "In2"⟩], .modelRef 6 "M"⟩]⟩ :
        CadlInterface).operations := by
    simp [CadlInterface.operations]
  have hne : (⟨"op1", [⟨200, "x", .modelRef 4 "In1"⟩], .modelRef 6 "M"⟩ :
      CadlOperation) ≠
      ⟨"op2", [⟨201, "y", .modelRef 5 "In2"⟩], .modelRef 6 "M"⟩ := by
    simp
  have hA : opRefsModel
      ⟨"op1", [⟨200, "x", .modelRef 4 "In1"⟩], .modelRef 6 "M"⟩ 6 "M" :=
    Or.inr ⟨rfl, rfl⟩
  have hB : opRefsModel
      ⟨"op2", [⟨201, "y", .modelRef 5 "In2"⟩], .modelRef 6 "M"⟩ 6 "M" :=
    Or.inr ⟨rfl, rfl⟩
  have h := C2_shared_model_single_message h0 hcoh hinj hiA hopA hiA hopB
    hne hA hB
  refine ⟨h.1, ?_⟩
  have h2 := h.2.2.1
  simpa [methodSpec, inputSpec, returnSpec, typeNameD,
    CadlInterface.operations] using h2

/-- C9: the collector gathers exactly the service interfaces reachable
without crossing a package boundary: a nested namespace that is a package
is not descended into, so a service inside it appears only via that
package's own file (the collector run rooted at the nested package), while
services in non-package descendants do flow into the enclosing package's
file. -/
theorem C9_package_boundary_stops_recursion :
    (∀ (p : CadlProgram) (ns : CadlNamespace) (i : CadlInterface),
      i ∈ recursiveAddInterfaces p ns ↔ SvcReachable p ns i) ∧
    (∀ (p : CadlProgram) (ns c : CadlNamespace) (i : CadlInterface),
      c ∈ ns.children → c.nsId ∉ packageIds p →
      i ∈ recursiveAddInterfaces p c → i ∈ recursiveAddInterfaces p ns) ∧
    (∀ (p : CadlProgram) (q : CadlNamespace) (i : CadlInterface),
      SvcReachable p q i → i ∈ recursiveAddInterfaces p q) ∧
    (∀ (p : CadlProgram) (ns : CadlNamespace) (i : CadlInterface),
      ¬(i ∈ ns.interfaces ∧ i.id ∈ p.serviceIds) →
      (∀ c ∈ ns.children, c.nsId ∉ packageIds p →
        i ∉ recursiveAddInterfaces p c) →
      i ∉ recursiveAddInterfaces p ns) := by
  have hiff : ∀ (p : CadlProgram) (ns : CadlNamespace) (i : CadlInterface),
      i ∈ recursiveAddInterfaces p ns ↔ SvcReachable p ns i :=
    fun p ns i => (collect_iff p (nsSize ns)).1 ns le_rfl i
  refine ⟨hiff, ?_, ?_, ?_⟩
  · intro p ns c i hc hcp hi
    exact (hiff p ns i).mpr
      (SvcReachable.nested hc hcp ((hiff p c i).mp hi))
  · intro p q i hr
    exact (hiff p q i).mpr hr
  · intro p ns i hhere hnested hi
    cases (hiff p ns i).mp hi with
    | here hmem hsvc => exact hhere ⟨hmem, hsvc⟩
    | nested hc hcp hr =>
      exact hnested _ hc hcp ((hiff p _ i).mpr hr)

/-- Namespace of the boundary example: the root namespace holds no
interfaces and one nested namespace that is itself a package containing a
service interface. -/
def boundaryInner : CadlNamespace :=
  .mk 1 "Q" [⟨10, "Svc", []⟩] []

/-- Root namespace of the boundary example. -/
def boundaryRoot : CadlNamespace :=
  .mk 0 "P" [] [boundaryInner]

/-- The boundary example program: both namespaces are packages. -/
def boundaryExample : CadlProgram :=
  ⟨[(boundaryRoot, "p"), (boundaryInner, "p.q")], [10], [], []⟩

/-- C9 witness: in the boundary example the nested package's service is
not collected into the enclosing package's file but is collected into its
own. -/
theorem C9_witness :
    (⟨10, "Svc", []⟩ : CadlInterface) ∉
      recursiveAddInterfaces boundaryExample boundaryRoot ∧
    (⟨10, "Svc", []⟩ : CadlInterface) ∈
      recursiveAddInterfaces boundaryExample boundaryInner := by
  constructor
  · refine C9_package_boundary_stops_recursion.2.2.2 boundaryExample
      boundaryRoot ⟨10, "Svc", []⟩ ?_ ?_
    · simp [boundaryRoot, CadlNamespace.interfaces]
    · intro c hc hcp
      simp only [boundaryRoot, CadlNamespace.children,
        List.mem_singleton] at hc
      subst hc
      exfalso
      apply hcp
      simp [packageIds, boundaryExample, boundaryInner,
        CadlNamespace.nsId]
  · refine C9_package_boundary_stops_recursion.2.2.1 boundaryExample
      boundaryInner ⟨10, "Svc", []⟩ ?_
    refine SvcReachable.here ?_ ?_
    · simp [boundaryInner, CadlNamespace.interfaces]
    · simp [boundaryExample]

/-- C10: in every lowered file whose node pairs are name-coherent, each
message declaration named by a service's non-placeholder method input or
return reference occupies an earlier position in the declarations list
than the service declaration itself: messages are pushed while the
service's operations array is being built, before the service object is
pushed. -/
theorem C10_messages_precede_services {p : CadlProgram} {fuel : Nat}
    {ns : CadlNamespace} {diags : List Diag} {decls : List ProtoDecl}
    {diags2 : List Diag}
    (h : declarationsFromNamespace p fuel ns diags = some (decls, diags2))
    (hcoh : ∀ x ∈ nodeSetNs p ns, ∀ y ∈ nodeSetNs p ns,
      x.1 = y.1 → x.2 = y.2) :
    OrderedOk decls :=
  declarationsFromNamespace_ordered h hcoh

/-- C10 witness: the ordering invariant holds of the shared-model
example's lowered declarations. -/
theorem C10_witness : OrderedOk sharedDecls := by
  have h0 : declarationsFromNamespace sharedExample 5 sharedNs [] =
      some (sharedDecls, []) := by
    simp [declarationsFromNamespace, servicesGo, toMethodsGo,
      toMethodFromOperation, addModelAsInput, addReturnType, visitType,
      toMessage, toFields, addType, recursiveAddInterfaces,
      recursiveAddInterfacesList, packageIds, sharedExample, sharedNs,
      sharedDecls, typeId, typeNameD, propsOfType, modelProps, assocFind,
      lookupIndex, scalarTable, addDiag]
  have hcoh : ∀ x ∈ nodeSetNs sharedExample sharedNs,
      ∀ y ∈ nodeSetNs sharedExample sharedNs, x.1 = y.1 → x.2 = y.2 := by
    simp only [nodeSetNs, nsNodePairs, nsListNodePairs, ifacesNodePairs,
      opsNodePairs, opNodePairs, nodePairsOfProps, nodePairsOfType,
      nodePairsOfTypeList, tableNodes, tableNodesGo, sharedExample,
      sharedNs]
    decide
  exact C10_messages_precede_services h0 hcoh
